import Mathlib

/-!
Verification of the target dependency graph engine of the blade build
system (`src/blade/target.py`).  The Python code is shallowly embedded:
strings are `List Char`, fatal errors / uncaught exceptions are `Option`
failures, and the process-wide mutable tables (source ownership registry,
target database, per-target caches) are passed explicitly as state.
-/

namespace Blade

/-- Strings of the embedded program are lists of characters. -/
abbrev Str := List Char

/-- Python `\s` character class (ASCII range, as used by `re` on the
ASCII inputs handled here): space, tab, newline, carriage return,
vertical tab, form feed. -/
def isSpaceCh (c : Char) : Bool :=
  c = ' ' || c = '\t' || c = '\n' || c = '\r' || c = '\x0b' || c = '\x0c'

/-- Python `\w` character class (ASCII range): letters, digits, underscore. -/
def isWordCh (c : Char) : Bool :=
  (('a' ≤ c && c ≤ 'z') || ('A' ≤ c && c ≤ 'Z') || ('0' ≤ c && c ≤ '9') || c = '_')

/-- Python `str.startswith`. -/
def startsWithL : Str → Str → Bool
  | [], _ => true
  | _ :: _, [] => false
  | p :: ps, c :: cs => p = c && startsWithL ps cs

/-- Python `str.endswith`. -/
def endsWithL (pat l : Str) : Bool :=
  startsWithL pat.reverse l.reverse

/-- Python substring containment (`pat in s`). -/
def containsSub (pat : Str) (s : Str) : Bool :=
  startsWithL pat s ||
    match s with
    | [] => false
    | _ :: rest => containsSub pat rest

/-- Python `str.strip()`: remove leading and trailing whitespace. -/
def stripL (s : Str) : Str :=
  ((s.dropWhile isSpaceCh).reverse.dropWhile isSpaceCh).reverse

/-- Split a path on the separator `'/'`, like Python `path.split('/')`.
Always returns a non-empty list of separator-free components. -/
def splitSlash : Str → List Str
  | [] => [[]]
  | c :: rest =>
    if c = '/' then [] :: splitSlash rest
    else
      match splitSlash rest with
      | [] => [[c]]
      | h :: t => (c :: h) :: t

/-- Join path components with `'/'`, like Python `'/'.join(comps)`. -/
def joinSlash : List Str → Str
  | [] => []
  | [x] => x
  | x :: xs => x ++ '/' :: joinSlash xs

/-- One step of the component loop inside `posixpath.normpath`: skip empty
and `'.'` components, append ordinary components, and let `'..'` pop the
previous component unless the accumulator is an (initial, for relative
paths) run of `'..'` components. `abs` records whether the whole path had
initial slashes. -/
def normpathStep (abs : Bool) (acc : List Str) (comp : Str) : List Str :=
  if comp = [] ∨ comp = (".").data then acc
  else if comp ≠ ("..").data ∨ (¬ abs ∧ acc = []) ∨
      (acc ≠ [] ∧ acc.getLast? = some (("..").data)) then acc ++ [comp]
  else if acc ≠ [] then acc.dropLast
  else acc

/-- `os.path.normpath` (POSIX flavour), translated from `posixpath.normpath`:
empty path becomes `'.'`, one or two initial slashes are preserved (three or
more collapse to one), components are normalized by `normpathStep`. -/
def normpath (path : Str) : Str :=
  if path = [] then (".").data
  else
    let slashes : Nat :=
      if startsWithL (("/").data) path then
        if startsWithL (("//").data) path ∧ ¬ startsWithL (("///").data) path then 2 else 1
      else 0
    let comps := splitSlash path
    let newComps := comps.foldl (normpathStep (slashes > 0)) []
    let p := List.replicate slashes '/' ++ joinSlash newComps
    if p = [] then (".").data else p

/-- `os.path.join(a, b)` (POSIX flavour, two arguments). -/
def pjoin (a b : Str) : Str :=
  if startsWithL (("/").data) b then b
  else if a = [] ∨ a.getLast? = some '/' then a ++ b
  else a ++ '/' :: b

/-- Python `t.rsplit(':', 1)` under the assumption `':' in t`: split at the
last colon. -/
def rsplitColon (t : Str) : Str × Str :=
  let rev := t.reverse
  ((rev.dropWhile (fun c => c ≠ ':')).drop 1 |>.reverse,
   (rev.takeWhile (fun c => c ≠ ':')).reverse)

/-- `_normalize_one` from `target.py`: normalize a command-line target
reference into the canonical `dir:name` form.  A reference starting with a
single `/` is a fatal error, modelled as `none`. -/
def _normalize_one (target working_dir : Str) : Option Str :=
  let t? : Option Str :=
    if startsWithL (("//").data) target then some (target.drop 2)
    else if startsWithL (("/").data) target then none
    else if working_dir ≠ (".").data then some (pjoin working_dir target)
    else some target
  t?.map fun t =>
    let pn : Str × Str :=
      if ':' ∈ t then rsplitColon t
      else if endsWithL (("...").data) t then (t.take (t.length - 3), ("...").data)
      else (t, ("*").data)
    normpath pn.1 ++ ':' :: pn.2

/-- `normalize` from `target.py`: normalize a list of target references. -/
def normalize (targets : List Str) (working_dir : Str) : Option (List Str) :=
  targets.mapM fun t => _normalize_one t working_dir

/-- A target key: the `(directory, name)` pair identifying a target. -/
abbrev Key := Str × Str

/-- The dependency-resolution state of one target under construction:
its directory (`self.path`), its deduplicated `deps` list, its
`expanded_deps` list, and the set of keys registered in the shared target
database (`_add_system_library` only ever inserts keys there, so the
database is modelled by its key set). -/
structure DepState where
  path : Str
  deps : List Key
  expanded_deps : List Key
  db : List Key
  deriving DecidableEq, Repr

/-- `Target._add_system_library`: register a `SystemLibrary` target under
`key` unless the database already has an entry for it.  The registered
`SystemLibrary` itself carries no sources and no deps, so the database is
modelled by its key set only. -/
def _add_system_library (s : DepState) (key : Key) : DepState :=
  if key ∈ s.db then s else { s with db := s.db ++ [key] }

/-- `Target._unify_dep`: resolve a dependency string to a key.  The four
forms are `:name` (current directory), `//path:name` (root relative),
`#name` (system library, auto-registered), and relative `path:name`
(with `..` forbidden).  The `Exception`s raised by the Python code are
modelled as `none`. -/
def _unify_dep (s : DepState) (dep : Str) : Option (Key × DepState) :=
  match dep with
  | [] => none
  | c :: rest =>
    if c = ':' then
      some ((normpath s.path, rest), s)
    else if startsWithL (("//").data) dep then
      if ':' ∉ dep then none
      else
        let pl := rsplitColon (dep.drop 2)
        some ((normpath pl.1, pl.2), s)
    else if c = '#' then
      let dkey : Key := (("#").data, rest)
      some (dkey, _add_system_library s dkey)
    else
      if ':' ∉ dep then none
      else
        let pl := rsplitColon dep
        if containsSub (("..").data) pl.1 then none
        else some ((normpath (s.path ++ '/' :: pl.1), pl.2), s)

/-- The shared tail of `_init_target_deps` and
`_add_location_reference_target`: append `dkey` to `expanded_deps` and to
`deps` when not already present. -/
def appendDepKey (s : DepState) (dkey : Key) : DepState :=
  let s := if dkey ∈ s.expanded_deps then s
           else { s with expanded_deps := s.expanded_deps ++ [dkey] }
  if dkey ∈ s.deps then s else { s with deps := s.deps ++ [dkey] }

/-- `Target._init_target_deps`: resolve every declared dependency string
and append the key to `expanded_deps` and `deps` when absent. -/
def _init_target_deps (s : DepState) (deps : List Str) : Option DepState :=
  deps.foldlM (fun st d => do
    let r ← _unify_dep st d
    pure (appendDepKey r.2 r.1)) s

/-- `Target._check_format`: a dep or visibility string must start with
`':'`, `'#'`, `'//'` or `'./'` and contain at most one colon. -/
def _check_format (t : Str) : Bool :=
  (startsWithL ((":").data) t || startsWithL (("#").data) t ||
   startsWithL (("//").data) t || startsWithL (("./").data) t) &&
  t.count ':' ≤ 1

/-- The dependency-processing stage of `Target.__init__`: `_check_deps`
(every declared dep passes `_check_format`, otherwise fatal) followed by
`_init_target_deps`. -/
def constructDeps (s : DepState) (deps : List Str) : Option DepState :=
  if deps.all _check_format then _init_target_deps s deps else none

/-- `Target._add_location_reference_target`: given the groups of a
`LOCATION_RE` match (`none` when there was no match, mirroring `if m:`),
strip the optional type tag, resolve the referred target exactly like a
dependency string and append its key to `expanded_deps` and `deps` when
absent.  Returns the resolved key and tag. -/
def _add_location_reference_target (s : DepState) (m : Option (Str × Str)) :
    Option (Option (Key × Str) × DepState) :=
  match m with
  | none => some (none, s)
  | some (keyStr, ty) => do
    let ty := stripL ty
    let r ← _unify_dep s keyStr
    let s := appendDepKey r.2 r.1
    some (some (r.1, ty), s)

/-- `Target._convert_string_to_target_helper`: convert `#name` to
`('#', name)` and `path:name` (optionally `//path:name`, with exactly one
colon — `str.split(':')` unpacking into two variables fails otherwise) to
`(path, name)` with both parts stripped.  The fatal fallback is `none`. -/
def _convert_string_to_target_helper (ts : Str) : Option Key :=
  if ts = [] then none
  else if startsWithL (("#").data) ts then some ((("#").data, ts.drop 1))
  else if ':' ∈ ts then
    if ts.count ':' = 1 then
      let p := stripL (ts.takeWhile (fun c => c ≠ ':'))
      let n := stripL ((ts.dropWhile (fun c => c ≠ ':')).drop 1)
      let p := if startsWithL (("//").data) p then p.drop 2 else p
      some (p, n)
    else none
  else none

/-- `Target._add_hardcode_library`: convert each hardcoded dep, register
a system library for `#` keys, and append the key to `expanded_deps`
(only) when absent. -/
def _add_hardcode_library (s : DepState) (l : List Str) : Option DepState :=
  l.foldlM (fun st dep => do
    let dkey ← _convert_string_to_target_helper dep
    let st := if dkey.1 = ("#").data then _add_system_library st dkey else st
    pure (if dkey ∈ st.expanded_deps then st
          else { st with expanded_deps := st.expanded_deps ++ [dkey] })) s

/-- An entry of the source ownership registry: the owning target's
`fullname` and its `_allow_duplicate_source()` flag. -/
abbrev Owner := Str × Bool

/-- The process-wide `Target.__src_target_map`: normalized source path to
owner, insertion ordered like a Python dict. -/
abbrev Registry := List (Str × Owner)

/-- Dict lookup in an insertion-ordered association list. -/
def regFind : Registry → Str → Option Owner
  | [], _ => none
  | (k, ow) :: rest, s => if k = s then some ow else regFind rest s

/-- Dict assignment in an insertion-ordered association list: replace the
value at an existing key in place, otherwise append. -/
def regSet : Registry → Str → Owner → Registry
  | [], s, ow => [(s, ow)]
  | (k, o') :: rest, s, ow =>
    if k = s then (k, ow) :: rest else (k, o') :: regSet rest s ow

/-- The conflict message `'Source file %s belongs to {%s, %s}'` of
`Target._check_srcs`. -/
def conflictMsg (s a b : Str) : Str :=
  ("Source file ").data ++ s ++ (" belongs to \x7b").data ++ a ++
    (", ").data ++ b ++ ("\x7d").data

/-- The per-source body of the ownership loop in `Target._check_srcs`
(lines 221-245): reject escaping paths, claim unclaimed paths, and on a
conflict keep the claim of a duplicate-disallowing existing owner,
transfer the claim when the existing owner allows duplicates, and apply
the `duplicated_source_action` policy when both disallow.  Fatal errors
are `none`; emitted warnings are accumulated. -/
def _check_srcs_step (action path : Str) (allow : Bool) (fullname : Str)
    (mw : Registry × List Str) (s : Str) : Option (Registry × List Str) :=
  if containsSub (("..").data) s || startsWithL (("/").data) s then none
  else
    let src := normpath (pjoin path s)
    let tgt : Owner := (fullname, allow)
    match regFind mw.1 src with
    | none => some (regSet mw.1 src tgt, mw.2)
    | some ex =>
      if ex ≠ tgt then
        if ex.2 then some (regSet mw.1 src tgt, mw.2)
        else if allow then some (mw.1, mw.2)
        else
          if action = ("error").data then none
          else if action = ("warning").data then
            some (mw.1, mw.2 ++ [conflictMsg s ex.1 fullname])
          else some (mw.1, mw.2)
      else some (mw.1, mw.2)

/-- `Target._check_srcs`: fatal on duplicate paths inside `srcs`, then
run the ownership loop over every source. -/
def _check_srcs (action path : Str) (allow : Bool) (fullname : Str)
    (srcs : List Str) (m : Registry) : Option (Registry × List Str) :=
  if srcs.Nodup then srcs.foldlM (_check_srcs_step action path allow fullname) (m, [])
  else none

/-- Python values appearing in the rule-hash factors dict: strings,
2-tuples and lists (lists encoded by `nil` / `cons`). -/
inductive PyVal : Type where
  | str : Str → PyVal
  | pair : PyVal → PyVal → PyVal
  | nil : PyVal
  | cons : PyVal → PyVal → PyVal
  deriving DecidableEq, Repr

/-- Encode a Lean list of Python values as a Python list value. -/
def listVal (l : List PyVal) : PyVal :=
  l.foldr PyVal.cons PyVal.nil

/-- Strict lexicographic order on strings, as Python compares `str`. -/
def strLt : Str → Str → Bool
  | [], [] => false
  | [], _ :: _ => true
  | _ :: _, [] => false
  | a :: as', b :: bs => if a < b then true else if b < a then false else strLt as' bs

/-- `sorted(factors.items())`: sort the factor items by key (the keys of a
dict are distinct, so Python's tuple comparison never reaches the
values). -/
def sortItems (l : List (Str × PyVal)) : List (Str × PyVal) :=
  l.insertionSort (fun a b => ¬ strLt b.1 a.1)

/-- Dict assignment `d[k] = v` on an insertion-ordered association list:
replace the value at an existing key in place, otherwise append. -/
def alSet (l : List (Str × PyVal)) (k : Str) (v : PyVal) : List (Str × PyVal) :=
  match l with
  | [] => [(k, v)]
  | (k', v') :: rest =>
    if k' = k then (k', v) :: rest else (k', v') :: alSet rest k v

/-- `core.update(extra)` on insertion-ordered dicts: each entry of `extra`
overrides an existing key of `core` or is appended. -/
def dictUpdate (core extra : List (Str × PyVal)) : List (Str × PyVal) :=
  extra.foldl (fun acc kv => alSet acc kv.1 kv.2) core

/-- A target as seen by the rule-hash engine: its own attributes, the two
dependency lists and the open `data` map (`_rule_hash_factors()` returns
`self.data` by default). -/
structure TargetRec where
  type : Str
  name : Str
  srcs : List Str
  deps : List Key
  expanded_deps : List Key
  data : List (Str × PyVal)
  deriving DecidableEq, Repr

/-- Lookup in the target database mapping keys to targets. -/
def lookupTarget (db : List (Key × TargetRec)) (k : Key) : Option TargetRec :=
  match db with
  | [] => none
  | (k', t) :: rest => if k' = k then some t else lookupTarget rest k

/-- The core factors dict of `Target.rule_hash` before `update`:
`{'type': .., 'name': .., 'srcs': .., 'deps': <dep hashes>}`. -/
def coreFactors (t : TargetRec) (depHs : List PyVal) : List (Str × PyVal) :=
  [(("type").data, PyVal.str t.type),
   (("name").data, PyVal.str t.name),
   (("srcs").data, listVal (t.srcs.map PyVal.str)),
   (("deps").data, listVal depHs)]

/-- Modelled from the spec: `md5sum` (imported from `blade_util`, which is
not among the sources) hashes the deterministic serialization
`str(sorted(factors.items()))` with a digest whose collisions are ignored
— §4.5 guarantees the digest "changes if and only if the target's or any
dependency's declared content changes", so the digest is modelled as the
injective serialization itself. -/
def md5sum (v : PyVal) : PyVal := v

/-- Serialize the factors dict deterministically:
`str(sorted(factors.items()))`, a list of `(key, value)` tuples sorted by
key. -/
def serializeFactors (items : List (Str × PyVal)) : PyVal :=
  listVal ((sortItems items).map fun kv => PyVal.pair (PyVal.str kv.1) kv.2)

/-- `Target.rule_hash`: hash the core factors (type, name, srcs, and the
recursively computed hashes of the targets of the deduplicated `deps`
list, in declaration order) updated with `_rule_hash_factors()` (the
`data` map).  Recursion is bounded by `fuel` — dependency graphs are
assumed acyclic, and a missing database entry (Python `KeyError`) or
exhausted fuel is `none`.  The memoization cache `__rule_hash` does not
change the computed value and is not modelled. -/
def rule_hash (db : List (Key × TargetRec)) : Nat → TargetRec → Option PyVal
  | 0, _ => none
  | Nat.succ fuel, t =>
    match t.deps.mapM (fun k => (lookupTarget db k).bind (rule_hash db fuel)) with
    | none => none
    | some depHs =>
      some (md5sum (serializeFactors (dictUpdate (coreFactors t depHs) t.data)))

/-- The dependency-hash list collected by the loop in `Target.rule_hash`. -/
def depHashes (db : List (Key × TargetRec)) (fuel : Nat) (t : TargetRec) :
    Option (List PyVal) :=
  t.deps.mapM (fun k => (lookupTarget db k).bind (rule_hash db fuel))

/-- The rule-emission state of one target: the `__build_rules` cache and
an observation counter for invocations of the subclass `ninja_rules`
routine. -/
structure RuleState where
  build_rules : Option (List Str)
  ninja_calls : Nat
  deriving DecidableEq, Repr

/-- `Target.get_rules`: on the first call set the cache and invoke the
subclass rule-generation routine `ninja_rules` (which appends the lines
`gen` through `_write_rule`); later calls return the cache. -/
def get_rules (gen : List Str) (s : RuleState) : List Str × RuleState :=
  match s.build_rules with
  | none => (gen, { build_rules := some gen, ninja_calls := s.ninja_calls + 1 })
  | some r => (r, s)

/-- Matcher for the optional tail `(\s+\w*)?\)` of `LOCATION_RE`: returns
the raw second group (empty when absent) and the remainder after `')'`.
Inside the group, `\s+` must take the whole whitespace run and `\w*` the
whole word run, since neither class overlaps the respective follower. -/
def matchOptTail (l : Str) : Option (Str × Str) :=
  match l with
  | [] => none
  | c :: rest =>
    if isSpaceCh c then
      let ws := l.takeWhile isSpaceCh
      let l3 := l.dropWhile isSpaceCh
      let wd := l3.takeWhile isWordCh
      let l4 := l3.drop wd.length
      match l4 with
      | ')' :: rem => some (ws ++ wd, rem)
      | _ => none
    else if c = ')' then some ([], rest)
    else none

/-- Backtracking for `\S+` in `LOCATION_RE` (greedy, longest first):
`a` is the text matched by `\S*`, `after` the input following the colon,
`m` the candidate length. -/
def tryPlus (a after : Str) : Nat → Option (Str × Str × Str)
  | 0 => none
  | Nat.succ m =>
    match matchOptTail (after.drop (m + 1)) with
    | some (g2, rem) => some (a ++ ':' :: after.take (m + 1), g2, rem)
    | none => tryPlus a after m

/-- One candidate for `\S*` in `LOCATION_RE`: take `k` characters,
require a colon right after them, then match `\S+` via `tryPlus`
(greedy, from the length of the non-space run after the colon). -/
def tryAt (l1 : Str) (k : Nat) : Option (Str × Str × Str) :=
  if (l1.drop k).head? = some ':' then
    tryPlus (l1.take k) (l1.drop (k + 1))
      ((l1.drop (k + 1)).takeWhile (fun c => ¬ isSpaceCh c)).length
  else none

/-- Backtracking for `\S*` in `LOCATION_RE` (greedy, longest candidate
first). -/
def tryStar (l1 : Str) : Nat → Option (Str × Str × Str)
  | 0 => tryAt l1 0
  | Nat.succ k =>
    match tryAt l1 (k + 1) with
    | some r => some r
    | none => tryStar l1 k

/-- Match `LOCATION_RE` = `\$\(location\s+(\S*:\S+)(\s+\w*)?\)` anchored
at the start of `l`: the literal `$(location`, one or more whitespace
characters, then the two groups. -/
def locationMatchAt (l : Str) : Option (Str × Str × Str) :=
  if startsWithL (("$(location").data) l then
    let rest := l.drop 10
    let ws := rest.takeWhile isSpaceCh
    if ws = [] then none
    else
      let l1 := rest.dropWhile isSpaceCh
      tryStar l1 (l1.takeWhile (fun c => ¬ isSpaceCh c)).length
  else none

/-- `LOCATION_RE.search`: try the pattern at every position, leftmost
match first; returns the two captured groups. -/
def locationSearch : Str → Option (Str × Str)
  | [] =>
    match locationMatchAt [] with
    | some r => some (r.1, r.2.1)
    | none => none
  | c :: t =>
    match locationMatchAt (c :: t) with
    | some r => some (r.1, r.2.1)
    | none => locationSearch t

/-- Resolving the location references of a string attribute: feed the
search result (the match groups, or `none`) to
`_add_location_reference_target`. -/
def handleLocation (st : DepState) (s : Str) :
    Option (Option (Key × Str) × DepState) :=
  _add_location_reference_target st (locationSearch s)

/-! ### General list lemmas -/

theorem takeWhile_all_append {α} (p : α → Bool) (l1 : List α) (c : α) (l2 : List α)
    (h1 : ∀ x ∈ l1, p x = true) (hc : p c = false) :
    (l1 ++ c :: l2).takeWhile p = l1 := by
  induction l1 with
  | nil => simp [List.takeWhile_cons, hc]
  | cons a as ih =>
    have ha : p a = true := h1 a (by simp)
    simp only [List.cons_append, List.takeWhile_cons, ha, if_true]
    rw [ih (fun x hx => h1 x (by simp [hx]))]

theorem dropWhile_all_append {α} (p : α → Bool) (l1 : List α) (c : α) (l2 : List α)
    (h1 : ∀ x ∈ l1, p x = true) (hc : p c = false) :
    (l1 ++ c :: l2).dropWhile p = c :: l2 := by
  induction l1 with
  | nil => simp [List.dropWhile_cons, hc]
  | cons a as ih =>
    have ha : p a = true := h1 a (by simp)
    simp only [List.cons_append, List.dropWhile_cons, ha, if_true]
    exact ih (fun x hx => h1 x (by simp [hx]))

theorem rsplitColon_append (a n : Str) (hn : ':' ∉ n) :
    rsplitColon (a ++ ':' :: n) = (a, n) := by
  have hall : ∀ x ∈ n.reverse, (fun c => decide (c ≠ ':')) x = true := by
    intro x hx
    simp only [decide_eq_true_eq, ne_eq]
    intro h; subst h; exact hn (List.mem_reverse.mp hx)
  have hc : (fun c => decide (c ≠ ':')) ':' = false := by simp
  have hrev : (a ++ ':' :: n).reverse = n.reverse ++ ':' :: a.reverse := by simp
  show (let rev := (a ++ ':' :: n).reverse
    (((rev.dropWhile (fun c => c ≠ ':')).drop 1).reverse,
      (rev.takeWhile (fun c => c ≠ ':')).reverse)) = (a, n)
  simp only [hrev, takeWhile_all_append _ _ _ _ hall hc,
    dropWhile_all_append _ _ _ _ hall hc]
  simp

theorem count_singleton_append (a n : Str) (hp : ':' ∉ a) (hn : ':' ∉ n) :
    (a ++ ':' :: n).count ':' = 1 := by
  rw [List.count_append, List.count_cons]
  rw [List.count_eq_zero.mpr hp, List.count_eq_zero.mpr hn]
  simp

/-! ### Lemmas about the dependency resolver -/

theorem _add_system_library_fields (s : DepState) (k : Key) :
    (_add_system_library s k).path = s.path ∧
    (_add_system_library s k).deps = s.deps ∧
    (_add_system_library s k).expanded_deps = s.expanded_deps := by
  unfold _add_system_library; split <;> simp

theorem _unify_dep_fields {s : DepState} {dep : Str} {k : Key} {s' : DepState}
    (h : _unify_dep s dep = some (k, s')) :
    s'.path = s.path ∧ s'.deps = s.deps ∧ s'.expanded_deps = s.expanded_deps := by
  cases dep with
  | nil => simp [_unify_dep] at h
  | cons c rest =>
    simp only [_unify_dep] at h
    repeat' split at h
    all_goals try exact Option.noConfusion h
    all_goals simp only [Option.some.injEq, Prod.mk.injEq] at h
    all_goals rw [← h.2]
    all_goals first
      | exact ⟨rfl, rfl, rfl⟩
      | exact _add_system_library_fields s _

theorem _unify_dep_det {s t : DepState} (hp : t.path = s.path) {dep : Str}
    {k k' : Key} {s' t' : DepState}
    (h1 : _unify_dep s dep = some (k, s')) (h2 : _unify_dep t dep = some (k', t')) :
    k' = k := by
  cases dep with
  | nil => simp [_unify_dep] at h1
  | cons c rest =>
    simp only [_unify_dep] at h1 h2
    repeat' split at h1
    all_goals repeat' split at h2
    all_goals try exact Option.noConfusion h1
    all_goals try contradiction
    all_goals simp only [Option.some.injEq, Prod.mk.injEq] at h1 h2
    all_goals rw [← h1.1, ← h2.1]
    all_goals try rw [hp]

theorem appendDepKey_eq (s : DepState) (k : Key) :
    appendDepKey s k =
      { s with
        expanded_deps :=
          if k ∈ s.expanded_deps then s.expanded_deps else s.expanded_deps ++ [k],
        deps := if k ∈ s.deps then s.deps else s.deps ++ [k] } := by
  unfold appendDepKey
  by_cases h1 : k ∈ s.expanded_deps <;> by_cases h2 : k ∈ s.deps <;> simp [h1, h2]

theorem appendDepKey_path (s : DepState) (k : Key) :
    (appendDepKey s k).path = s.path := by
  rw [appendDepKey_eq]

/-- Number of occurrences of a key in a list of keys. -/
def countKey (k : Key) : List Key → Nat
  | [] => 0
  | x :: xs => (if x = k then 1 else 0) + countKey k xs

theorem countKey_append (k : Key) (l1 l2 : List Key) :
    countKey k (l1 ++ l2) = countKey k l1 + countKey k l2 := by
  induction l1 with
  | nil => simp [countKey]
  | cons x xs ih => simp [countKey, ih]; ring

theorem countKey_eq_zero (k : Key) {l : List Key} (h : k ∉ l) : countKey k l = 0 := by
  induction l with
  | nil => rfl
  | cons x xs ih =>
    have hx : ¬ x = k := fun e => h (e ▸ List.mem_cons_self x xs)
    simp only [countKey, hx, if_false, Nat.zero_add]
    exact ih (fun hm => h (List.mem_cons_of_mem x hm))

theorem countKey_eq_one (k : Key) {l : List Key} (hnd : l.Nodup) (hm : k ∈ l) :
    countKey k l = 1 := by
  induction l with
  | nil => exact absurd hm (by simp)
  | cons x xs ih =>
    rcases List.nodup_cons.mp hnd with ⟨hx, hnd'⟩
    by_cases hxk : x = k
    · subst hxk
      simp only [countKey, if_true, countKey_eq_zero x hx]
    · have hm' : k ∈ xs := by
        rcases List.mem_cons.mp hm with h | h
        · exact absurd h.symm hxk
        · exact h
      simp only [countKey, hxk, if_false, ih hnd' hm']

/-- `deps ⊆ expanded_deps`, as sets. -/
def depsSubset (s : DepState) : Prop :=
  ∀ k ∈ s.deps, k ∈ s.expanded_deps

theorem appendDepKey_subset {s : DepState} (k : Key) (h : depsSubset s) :
    depsSubset (appendDepKey s k) := by
  rw [appendDepKey_eq]
  intro k' hk'
  simp only at hk' ⊢
  by_cases hd : k ∈ s.deps
  · simp only [hd, if_true] at hk'
    by_cases he : k ∈ s.expanded_deps
    · simpa [he] using h k' hk'
    · simp only [he, if_false, List.mem_append]
      exact Or.inl (h k' hk')
  · simp only [hd, if_false, List.mem_append, List.mem_singleton] at hk'
    by_cases he : k ∈ s.expanded_deps
    · simp only [he, if_true]
      rcases hk' with hk' | rfl
      · exact h k' hk'
      · exact he
    · simp only [he, if_false, List.mem_append, List.mem_singleton]
      rcases hk' with hk' | rfl
      · exact Or.inl (h k' hk')
      · exact Or.inr rfl

theorem foldlM_option_preserve {α β : Type} (P : α → Prop) (f : α → β → Option α)
    (hf : ∀ a b a', P a → f a b = some a' → P a') :
    ∀ (l : List β) (a a' : α), P a → l.foldlM f a = some a' → P a' := by
  intro l
  induction l with
  | nil =>
    intro a a' h hfold
    simp only [List.foldlM_nil] at hfold
    cases hfold
    exact h
  | cons b bs ih =>
    intro a a' h hfold
    rw [List.foldlM_cons] at hfold
    cases hfb : f a b with
    | none => rw [hfb] at hfold; exact Option.noConfusion hfold
    | some a1 =>
      rw [hfb] at hfold
      simp only [Option.bind_eq_bind, Option.some_bind] at hfold
      exact ih a1 a' (hf a b a1 h hfb) hfold

theorem _init_target_deps_single (s : DepState) (d : Str) :
    _init_target_deps s [d] =
      match _unify_dep s d with
      | none => none
      | some r => some (appendDepKey r.2 r.1) := by
  unfold _init_target_deps
  cases h : _unify_dep s d <;> simp [h]

/-- C2: `get_rules` invoked a second time returns the same content and the
same state, and starting from an unfilled cache the generation routine has
run exactly once after the first call and still exactly once after the
second. -/
theorem get_rules_cached (gen : List Str) (s : RuleState) :
    (get_rules gen (get_rules gen s).2).1 = (get_rules gen s).1 ∧
    (get_rules gen (get_rules gen s).2).2 = (get_rules gen s).2 ∧
    (s.build_rules = none →
      ((get_rules gen s).2.ninja_calls = s.ninja_calls + 1 ∧
        (get_rules gen (get_rules gen s).2).2.ninja_calls = s.ninja_calls + 1)) := by
  cases h : s.build_rules <;> simp [get_rules, h]

theorem get_rules_cached_w :
    (get_rules [("build foo: cc").data] ⟨none, 0⟩).2.ninja_calls = 0 + 1 ∧
    (get_rules [("build foo: cc").data]
        (get_rules [("build foo: cc").data] ⟨none, 0⟩).2).2.ninja_calls = 0 + 1 ∧
    (get_rules [("build foo: cc").data]
        (get_rules [("build foo: cc").data] ⟨none, 0⟩).2).1 =
      (get_rules [("build foo: cc").data] ⟨none, 0⟩).1 :=
  ⟨((get_rules_cached _ _).2.2 rfl).1, ((get_rules_cached _ _).2.2 rfl).2,
    (get_rules_cached _ _).1⟩

/-- C5: `deps ⊆ expanded_deps` (as sets) is preserved by construction-time
dependency resolution, by location-reference resolution, and by hardcoded
system-library addition. -/
theorem deps_subset_invariant :
    (∀ (s : DepState) (ds : List Str) (s' : DepState), depsSubset s →
        _init_target_deps s ds = some s' → depsSubset s') ∧
    (∀ (s : DepState) (m : Option (Str × Str)) (r : Option (Key × Str)) (s' : DepState),
        depsSubset s → _add_location_reference_target s m = some (r, s') → depsSubset s') ∧
    (∀ (s : DepState) (l : List Str) (s' : DepState), depsSubset s →
        _add_hardcode_library s l = some s' → depsSubset s') := by
  have hstep : ∀ (st : DepState) (d : Str) (st' : DepState), depsSubset st →
      (do
        let r ← _unify_dep st d
        pure (appendDepKey r.2 r.1) : Option DepState) = some st' → depsSubset st' := by
    intro st d st' h hstep
    cases hu : _unify_dep st d with
    | none =>
      rw [hu] at hstep
      exact Option.noConfusion hstep
    | some p =>
      obtain ⟨k0, s0⟩ := p
      rw [hu] at hstep
      simp only [Option.bind_eq_bind, Option.some_bind, Option.pure_def, Option.some.injEq] at hstep
      obtain ⟨hp, hd, he⟩ := _unify_dep_fields hu
      have h0 : depsSubset s0 := by
        intro x hx
        rw [he]
        exact h x (hd ▸ hx)
      rw [← hstep]
      exact appendDepKey_subset k0 h0
  refine ⟨?_, ?_, ?_⟩
  · intro s ds s' h hop
    exact foldlM_option_preserve depsSubset _ hstep ds s s' h hop
  · intro s m r s' h hop
    cases m with
    | none =>
      simp only [_add_location_reference_target, Option.some.injEq, Prod.mk.injEq] at hop
      rw [← hop.2]
      exact h
    | some g =>
      obtain ⟨ks, ty⟩ := g
      simp only [_add_location_reference_target] at hop
      cases hu : _unify_dep s ks with
      | none =>
        rw [hu] at hop
        exact Option.noConfusion hop
      | some p =>
        obtain ⟨k0, s0⟩ := p
        rw [hu] at hop
        simp only [Option.bind_eq_bind, Option.some_bind, Option.some.injEq,
          Prod.mk.injEq] at hop
        obtain ⟨hp, hd, he⟩ := _unify_dep_fields hu
        have h0 : depsSubset s0 := by
          intro x hx
          rw [he]
          exact h x (hd ▸ hx)
        rw [← hop.2]
        exact appendDepKey_subset k0 h0
  · intro s l s' h hop
    refine foldlM_option_preserve depsSubset _ ?_ l s s' h hop
    intro st dep st' hP hstep'
    cases hc : _convert_string_to_target_helper dep with
    | none =>
      rw [hc] at hstep'
      exact Option.noConfusion hstep'
    | some dkey =>
      rw [hc] at hstep'
      simp only [Option.bind_eq_bind, Option.some_bind, Option.pure_def, Option.some.injEq] at hstep'
      set st2 := if dkey.1 = ("#").data then _add_system_library st dkey else st with hst2
      have h2 : depsSubset st2 := by
        rw [hst2]
        split
        · intro x hx
          obtain ⟨-, hd, he⟩ := _add_system_library_fields st dkey
          rw [he]
          exact hP x (hd ▸ hx)
        · exact hP
      rw [← hstep']
      by_cases hmem : dkey ∈ st2.expanded_deps
      · simp only [hmem, if_true]
        exact h2
      · simp only [hmem, if_false]
        intro x hx
        exact List.mem_append.mpr (Or.inl (h2 x hx))

/-- Resolving a reference once from a duplicate-free state puts the key in
both lists exactly once; resolving it again leaves both lists unchanged. -/
theorem appendDepKey_twice {s sa sb : DepState} (k : Key)
    (hd : s.deps.Nodup) (he : s.expanded_deps.Nodup)
    (hda : sa.deps = s.deps) (hea : sa.expanded_deps = s.expanded_deps)
    (hdb : sb.deps = (appendDepKey sa k).deps)
    (heb : sb.expanded_deps = (appendDepKey sa k).expanded_deps) :
    countKey k (appendDepKey sb k).deps = 1 ∧
    countKey k (appendDepKey sb k).expanded_deps = 1 := by
  have e1 : (appendDepKey sa k).deps = if k ∈ s.deps then s.deps else s.deps ++ [k] := by
    rw [appendDepKey_eq, hda]
  have e2 : (appendDepKey sa k).expanded_deps =
      if k ∈ s.expanded_deps then s.expanded_deps else s.expanded_deps ++ [k] := by
    rw [appendDepKey_eq, hea]
  have m1 : k ∈ sb.deps := by
    rw [hdb, e1]
    split
    · assumption
    · simp
  have m2 : k ∈ sb.expanded_deps := by
    rw [heb, e2]
    split
    · assumption
    · simp
  have r1 : (appendDepKey sb k).deps = sb.deps := by
    rw [appendDepKey_eq]
    simp [m1]
  have r2 : (appendDepKey sb k).expanded_deps = sb.expanded_deps := by
    rw [appendDepKey_eq]
    simp [m2]
  rw [r1, r2, hdb, heb, e1, e2]
  constructor
  · split
    · exact countKey_eq_one k hd (by assumption)
    · rw [countKey_append, countKey_eq_zero k (by assumption)]
      simp [countKey]
  · split
    · exact countKey_eq_one k he (by assumption)
    · rw [countKey_append, countKey_eq_zero k (by assumption)]
      simp [countKey]

/-- C6: resolving the same reference string twice against the same target
— through a location reference or through construction-time dependency
resolution — leaves the resolved key occurring exactly once in `deps` and
exactly once in `expanded_deps`. -/
theorem resolve_twice_no_duplicate :
    (∀ (s : DepState) (r tag : Str) (res1 res2 : Option (Key × Str)) (s1 s2 : DepState)
        (k : Key) (ty : Str),
      s.deps.Nodup → s.expanded_deps.Nodup →
      _add_location_reference_target s (some (r, tag)) = some (res1, s1) →
      _add_location_reference_target s1 (some (r, tag)) = some (res2, s2) →
      res1 = some (k, ty) →
      countKey k s2.deps = 1 ∧ countKey k s2.expanded_deps = 1) ∧
    (∀ (s : DepState) (d : Str) (k : Key) (s0 s1 s2 : DepState),
      s.deps.Nodup → s.expanded_deps.Nodup →
      _unify_dep s d = some (k, s0) →
      _init_target_deps s [d] = some s1 →
      _init_target_deps s1 [d] = some s2 →
      countKey k s2.deps = 1 ∧ countKey k s2.expanded_deps = 1) := by
  constructor
  · intro s r tag res1 res2 s1 s2 k ty hd he h1 h2 hres
    simp only [_add_location_reference_target] at h1 h2
    cases hu1 : _unify_dep s r with
    | none =>
      rw [hu1] at h1
      exact Option.noConfusion h1
    | some p1 =>
      obtain ⟨k1, sa⟩ := p1
      rw [hu1] at h1
      simp only [Option.bind_eq_bind, Option.some_bind, Option.some.injEq,
        Prod.mk.injEq] at h1
      obtain ⟨hres1, hs1⟩ := h1
      have hk1 : k1 = k := by
        rw [← hres1] at hres
        exact (Prod.ext_iff.mp (Option.some.inj hres)).1
      obtain ⟨hpa, hda, hea⟩ := _unify_dep_fields hu1
      cases hu2 : _unify_dep s1 r with
      | none =>
        rw [hu2] at h2
        exact Option.noConfusion h2
      | some p2 =>
        obtain ⟨k2, sb⟩ := p2
        have hpath : s1.path = s.path := by
          rw [← hs1, appendDepKey_path, hpa]
        have hk2 : k2 = k1 := _unify_dep_det hpath hu1 hu2
        rw [hu2] at h2
        simp only [Option.bind_eq_bind, Option.some_bind, Option.some.injEq,
          Prod.mk.injEq] at h2
        obtain ⟨hpb, hdb, heb⟩ := _unify_dep_fields hu2
        rw [← h2.2, hk2, hk1]
        refine appendDepKey_twice k hd he hda hea ?_ ?_
        · rw [hdb, ← hs1, hk1]
        · rw [heb, ← hs1, hk1]
  · intro s d k s0 s1 s2 hd he hu h1 h2
    rw [_init_target_deps_single] at h1 h2
    rw [hu] at h1
    simp only [Option.some.injEq] at h1
    obtain ⟨hpa, hda, hea⟩ := _unify_dep_fields hu
    cases hu2 : _unify_dep s1 d with
    | none =>
      rw [hu2] at h2
      exact Option.noConfusion h2
    | some p2 =>
      obtain ⟨k2, sb⟩ := p2
      have hpath : s1.path = s.path := by
        rw [← h1, appendDepKey_path, hpa]
      have hk2 : k2 = k := _unify_dep_det hpath hu hu2
      rw [hu2] at h2
      simp only [Option.some.injEq] at h2
      obtain ⟨hpb, hdb, heb⟩ := _unify_dep_fields hu2
      rw [← h2, hk2]
      refine appendDepKey_twice k hd he hda hea ?_ ?_
      · rw [hdb, ← h1]
      · rw [heb, ← h1]

theorem resolve_twice_no_duplicate_w :
    countKey ((("app").data, ("x").data))
      (appendDepKey (appendDepKey ⟨("app").data, [], [], []⟩ ((("app").data, ("x").data)))
        ((("app").data, ("x").data))).deps = 1 :=
  (resolve_twice_no_duplicate.2 ⟨("app").data, [], [], []⟩ ((":x").data)
      ((("app").data, ("x").data)) ⟨("app").data, [], [], []⟩
      (appendDepKey ⟨("app").data, [], [], []⟩ ((("app").data, ("x").data)))
      (appendDepKey (appendDepKey ⟨("app").data, [], [], []⟩ ((("app").data, ("x").data)))
        ((("app").data, ("x").data)))
      List.nodup_nil List.nodup_nil (by decide) (by decide) (by decide)).1

theorem deps_subset_invariant_w :
    (("lib").data, ("util").data) ∈
      (appendDepKey ⟨("app").data, [], [], []⟩ ((("lib").data, ("util").data))).expanded_deps :=
  (deps_subset_invariant.1 ⟨("app").data, [], [], []⟩ [("//lib:util").data]
      (appendDepKey ⟨("app").data, [], [], []⟩ ((("lib").data, ("util").data)))
      (fun k hk => absurd hk (by simp)) (by decide))
    ((("lib").data, ("util").data)) (by decide)


theorem mem_appendDepKey (s : DepState) (k : Key) :
    k ∈ (appendDepKey s k).deps ∧ k ∈ (appendDepKey s k).expanded_deps := by
  rw [appendDepKey_eq]
  constructor
  · show k ∈ (if k ∈ s.deps then s.deps else s.deps ++ [k])
    split
    · assumption
    · simp
  · show k ∈ (if k ∈ s.expanded_deps then s.expanded_deps else s.expanded_deps ++ [k])
    split
    · assumption
    · simp

/-- C3 counterexample: when the existing claimant of `a/common.cc` allows
duplicate sources and the new target `a:y` also allows them, the code
transfers the claim to `a:y` instead of leaving the registry unchanged as
the claim states. -/
theorem check_srcs_both_allow_transfer_cex :
    _check_srcs_step (("warning").data) (("a").data) true (("a:y").data)
        ([((("a/common.cc").data), ((("a:x").data), true))], []) (("common.cc").data) =
      some ([((("a/common.cc").data), ((("a:y").data), true))], []) ∧
    ((("a:y").data), true) ≠ ((("a:x").data), true) := by
  decide

/-- C3 (amended): on an ownership conflict between differing claimants, if
the existing claimant disallows duplicate sources its claim is kept in
every non-fatal outcome; otherwise (the existing claimant allows
duplicates) the claim is transferred to the new target, even when both
allow duplicates.  In particular `a:x` (disallowing, registered first)
stays owner against `a:y` (allowing), with no fatal error. -/
theorem check_srcs_conflict_keep_or_transfer (action path s fullname : Str) (allow : Bool)
    (m : Registry) (w0 : List Str) (ex : Owner)
    (h1 : regFind m (normpath (pjoin path s)) = some ex)
    (h2 : ex ≠ (fullname, allow))
    (h3 : containsSub (("..").data) s = false)
    (h4 : startsWithL (("/").data) s = false) :
    (ex.2 = false → ∀ m' w',
        _check_srcs_step action path allow fullname (m, w0) s = some (m', w') →
        regFind m' (normpath (pjoin path s)) = some ex) ∧
    (ex.2 = true →
        _check_srcs_step action path allow fullname (m, w0) s =
          some (regSet m (normpath (pjoin path s)) (fullname, allow), w0)) := by
  constructor
  · intro hex m' w' h5
    by_cases hallow : allow
    · subst hallow
      simp [_check_srcs_step, h3, h4, h1, hex, ite_self] at h5
      rw [← h5.1]
      exact h1
    · have hallow' : allow = false := by
        cases allow
        · rfl
        · exact absurd rfl hallow
      subst hallow'
      by_cases ha1 : action = ("error").data
      · subst ha1
        simp [_check_srcs_step, h3, h4, h1, hex, h2] at h5
      · by_cases ha2 : action = ("warning").data
        · subst ha2
          simp [_check_srcs_step, h3, h4, h1, hex, h2] at h5
          rw [← h5.1]
          exact h1
        · simp [_check_srcs_step, h3, h4, h1, hex, h2, ha1, ha2] at h5
          rw [← h5.1]
          exact h1
  · intro hex
    simp [_check_srcs_step, h3, h4, h1, hex, h2]

theorem check_srcs_conflict_keep_or_transfer_w :
    regFind [((("a/common.cc").data), ((("a:x").data), false))]
        (normpath (pjoin (("a").data) (("common.cc").data))) =
      some ((("a:x").data), false) :=
  (check_srcs_conflict_keep_or_transfer (("warning").data) (("a").data)
      (("common.cc").data) (("a:y").data) true
      [((("a/common.cc").data), ((("a:x").data), false))] [] ((("a:x").data), false)
      (by decide) (by decide) (by decide) (by decide)).1 rfl
    [((("a/common.cc").data), ((("a:x").data), false))] [] (by decide)

/-- C8: on a genuine ownership conflict (differing owners, both
disallowing duplicate sources), the `duplicated_source_action` policy
decides the outcome: `error` aborts fatally, `warning` continues and
emits one warning naming both owners, and any other value continues
silently with the registry unchanged. -/
theorem duplicated_source_action_policy (action path s exName fullname : Str)
    (m : Registry) (w0 : List Str)
    (h1 : regFind m (normpath (pjoin path s)) = some ((exName, false)))
    (h2 : exName ≠ fullname)
    (h3 : containsSub (("..").data) s = false)
    (h4 : startsWithL (("/").data) s = false) :
    (action = ("error").data →
      _check_srcs_step action path false fullname (m, w0) s = none) ∧
    (action = ("warning").data →
      _check_srcs_step action path false fullname (m, w0) s =
        some (m, w0 ++ [conflictMsg s exName fullname]) ∧
      (∃ u v, conflictMsg s exName fullname = u ++ exName ++ v) ∧
      (∃ u v, conflictMsg s exName fullname = u ++ fullname ++ v)) ∧
    (action ≠ ("error").data → action ≠ ("warning").data →
      _check_srcs_step action path false fullname (m, w0) s = some (m, w0)) := by
  have hne : ((exName, false) : Owner) ≠ (fullname, false) := by
    intro h
    exact h2 (Prod.ext_iff.mp h).1
  refine ⟨?_, ?_, ?_⟩
  · intro ha
    subst ha
    simp [_check_srcs_step, h3, h4, h1, hne]
  · intro ha
    subst ha
    refine ⟨?_, ?_, ?_⟩
    · simp [_check_srcs_step, h3, h4, h1, hne]
    · refine ⟨("Source file ").data ++ s ++ (" belongs to \x7b").data,
        (", ").data ++ fullname ++ ("\x7d").data, ?_⟩
      simp [conflictMsg, List.append_assoc]
    · refine ⟨("Source file ").data ++ s ++ (" belongs to \x7b").data ++ exName ++ (", ").data,
        ("\x7d").data, ?_⟩
      simp [conflictMsg, List.append_assoc]
  · intro ha1 ha2
    simp [_check_srcs_step, h3, h4, h1, hne, ha1, ha2]

theorem duplicated_source_action_policy_w :
    _check_srcs_step (("error").data) (("a").data) false (("a:y").data)
        ([((("a/common.cc").data), ((("a:x").data), false))], []) (("common.cc").data) =
      none ∧
    _check_srcs_step (("warning").data) (("a").data) false (("a:y").data)
        ([((("a/common.cc").data), ((("a:x").data), false))], []) (("common.cc").data) =
      some ([((("a/common.cc").data), ((("a:x").data), false))],
        [conflictMsg (("common.cc").data) (("a:x").data) (("a:y").data)]) ∧
    _check_srcs_step (("none").data) (("a").data) false (("a:y").data)
        ([((("a/common.cc").data), ((("a:x").data), false))], []) (("common.cc").data) =
      some ([((("a/common.cc").data), ((("a:x").data), false))], []) :=
  ⟨(duplicated_source_action_policy (("error").data) (("a").data) (("common.cc").data)
      (("a:x").data) (("a:y").data) _ [] (by decide) (by decide) (by decide) (by decide)).1
      rfl,
   ((duplicated_source_action_policy (("warning").data) (("a").data) (("common.cc").data)
      (("a:x").data) (("a:y").data) _ [] (by decide) (by decide) (by decide) (by decide)).2.1
      rfl).1,
   (duplicated_source_action_policy (("none").data) (("a").data) (("common.cc").data)
      (("a:x").data) (("a:y").data) _ [] (by decide) (by decide) (by decide) (by decide)).2.2
      (by decide) (by decide)⟩

/-- C4 counterexample: the dependency `foo:bar` (relative form with no
leading marker) is rejected by `_check_format`, so the construction-time
dependency stage is fatal — even though `_unify_dep` itself would resolve
the string. -/
theorem bare_relative_dep_fatal_cex :
    constructDeps ⟨("a").data, [], [], []⟩ [("foo:bar").data] = none ∧
    (_unify_dep ⟨("a").data, [], [], []⟩ (("foo:bar").data)).isSome = true := by
  decide

/-- C4 (amended): a relative dependency `./path:name` (the only unmarked
relative form accepted by `_check_format`; bare `path:name` is fatal at
construction) resolves to the key `(normpath(currentDir + '/' + path),
name)`, which ends up in both `deps` and `expanded_deps`, and the
dependency stage of construction succeeds. -/
theorem relative_dep_resolution (st : DepState) (p n : Str)
    (hp : ':' ∉ p) (hn : ':' ∉ n)
    (hdd : containsSub (("..").data) ('.' :: '/' :: p) = false) :
    constructDeps st [('.' :: '/' :: p) ++ ':' :: n] =
      some (appendDepKey st ((normpath (st.path ++ '/' :: ('.' :: '/' :: p)), n))) ∧
    ((normpath (st.path ++ '/' :: ('.' :: '/' :: p)), n) ∈
      (appendDepKey st ((normpath (st.path ++ '/' :: ('.' :: '/' :: p)), n))).deps ∧
     (normpath (st.path ++ '/' :: ('.' :: '/' :: p)), n) ∈
      (appendDepKey st ((normpath (st.path ++ '/' :: ('.' :: '/' :: p)), n))).expanded_deps) := by
  have hpc : ':' ∉ '.' :: '/' :: p := by
    intro h
    rcases List.mem_cons.mp h with h | h
    · exact absurd h (by decide)
    · rcases List.mem_cons.mp h with h | h
      · exact absurd h (by decide)
      · exact hp h
  have hcount : (('.' :: '/' :: p) ++ ':' :: n).count ':' = 1 :=
    count_singleton_append _ _ hpc hn
  have hfmt : _check_format (('.' :: '/' :: p) ++ ':' :: n) = true := by
    unfold _check_format
    rw [hcount]
    simp [startsWithL]
  have hu : _unify_dep st (('.' :: '/' :: p) ++ ':' :: n) =
      some ((normpath (st.path ++ '/' :: ('.' :: '/' :: p)), n), st) := by
    rw [show (('.' :: '/' :: p) ++ ':' :: n) = '.' :: ('/' :: p ++ ':' :: n) from by simp]
    simp only [_unify_dep]
    rw [if_neg (by decide)]
    rw [if_neg (by simp [startsWithL])]
    rw [if_neg (by decide)]
    rw [if_neg (by simp)]
    rw [show ('.' :: ('/' :: p ++ ':' :: n)) = ('.' :: '/' :: p) ++ ':' :: n from by simp]
    rw [rsplitColon_append _ _ hn]
    rw [if_neg (by rw [hdd]; exact Bool.false_ne_true)]
  refine ⟨?_, (mem_appendDepKey st _).1, (mem_appendDepKey st _).2⟩
  have hall : ([('.' :: '/' :: p) ++ ':' :: n].all _check_format) = true := by
    simp only [List.all_cons, List.all_nil, hfmt, Bool.and_true]
  unfold constructDeps
  rw [hall, if_pos rfl, _init_target_deps_single, hu]

theorem relative_dep_resolution_w :
    constructDeps ⟨("a").data, [], [], []⟩
        [('.' :: '/' :: ("foo").data) ++ ':' :: ("bar").data] =
      some (appendDepKey ⟨("a").data, [], [], []⟩
        ((normpath ((("a").data) ++ '/' :: ('.' :: '/' :: ("foo").data)), ("bar").data))) :=
  (relative_dep_resolution ⟨("a").data, [], [], []⟩ (("foo").data) (("bar").data)
    (by decide) (by decide) (by decide)).1


/-! ### Lemmas about the factors dict and its serialization -/

/-- The key list of a factors dict. -/
def keysOf (l : List (Str × PyVal)) : List Str :=
  l.map Prod.fst

theorem listVal_inj {l1 l2 : List PyVal} (h : listVal l1 = listVal l2) : l1 = l2 := by
  induction l1 generalizing l2 with
  | nil =>
    cases l2 with
    | nil => rfl
    | cons y ys => exact absurd h (by simp [listVal])
  | cons x xs ih =>
    cases l2 with
    | nil => exact absurd h (by simp [listVal])
    | cons y ys =>
      simp only [listVal, List.foldr_cons] at h
      obtain ⟨h1, h2⟩ := PyVal.cons.inj h
      rw [h1, ih h2]

theorem map_str_inj {l1 l2 : List Str} (h : l1.map PyVal.str = l2.map PyVal.str) :
    l1 = l2 := by
  induction l1 generalizing l2 with
  | nil =>
    cases l2 with
    | nil => rfl
    | cons y ys => exact absurd h (by simp)
  | cons x xs ih =>
    cases l2 with
    | nil => exact absurd h (by simp)
    | cons y ys =>
      simp only [List.map_cons, List.cons.injEq] at h
      rw [PyVal.str.inj h.1, ih h.2]

theorem alSet_keys (l : List (Str × PyVal)) (k : Str) (v : PyVal) :
    keysOf (alSet l k v) = if k ∈ keysOf l then keysOf l else keysOf l ++ [k] := by
  induction l with
  | nil => simp [alSet, keysOf]
  | cons x xs ih =>
    obtain ⟨k0, v0⟩ := x
    by_cases hk : k0 = k
    · subst hk
      have e : alSet ((k0, v0) :: xs) k0 v = (k0, v) :: xs := by
        unfold alSet
        rw [if_pos rfl]
      rw [e, if_pos (show k0 ∈ keysOf ((k0, v0) :: xs) from List.mem_cons_self _ _)]
      rfl
    · have hcons : keysOf ((k0, v0) :: alSet xs k v) = k0 :: keysOf (alSet xs k v) := rfl
      have hcons2 : keysOf ((k0, v0) :: xs) = k0 :: keysOf xs := rfl
      simp only [alSet, hk, if_false, hcons, hcons2, ih]
      by_cases hmem : k ∈ keysOf xs
      · rw [if_pos hmem, if_pos (List.mem_cons_of_mem _ hmem)]
      · rw [if_neg hmem, if_neg (by
          intro hc
          rcases List.mem_cons.mp hc with h | h
          · exact hk h.symm
          · exact hmem h)]
        simp

theorem mem_alSet_self (l : List (Str × PyVal)) (k : Str) (v : PyVal) :
    (k, v) ∈ alSet l k v := by
  induction l with
  | nil => simp [alSet]
  | cons x xs ih =>
    obtain ⟨k0, v0⟩ := x
    by_cases hk : k0 = k
    · subst hk
      have e : alSet ((k0, v0) :: xs) k0 v = (k0, v) :: xs := by
        unfold alSet
        rw [if_pos rfl]
      rw [e]
      exact List.mem_cons_self _ _
    · simp only [alSet, hk, if_false]
      exact List.mem_cons_of_mem _ ih

theorem mem_alSet_of_ne {l : List (Str × PyVal)} {k' : Str} {v' : PyVal}
    (hm : (k', v') ∈ l) (k : Str) (v : PyVal) (hne : k' ≠ k) :
    (k', v') ∈ alSet l k v := by
  induction l with
  | nil => exact absurd hm (by simp)
  | cons x xs ih =>
    obtain ⟨k0, v0⟩ := x
    rcases List.mem_cons.mp hm with h | h
    · by_cases hk : k0 = k
      · subst hk
        injection h with e1 e2
        exact absurd e1 hne
      · simp only [alSet, hk, if_false]
        exact List.mem_cons.mpr (Or.inl h)
    · by_cases hk : k0 = k
      · subst hk
        have e : alSet ((k0, v0) :: xs) k0 v = (k0, v) :: xs := by
          unfold alSet
          rw [if_pos rfl]
        rw [e]
        exact List.mem_cons_of_mem _ h
      · simp only [alSet, hk, if_false]
        exact List.mem_cons_of_mem _ (ih h)

theorem mem_alSet {l : List (Str × PyVal)} {k' : Str} {v' : PyVal} {k : Str} {v : PyVal}
    (hnd : (keysOf l).Nodup) (hm : (k', v') ∈ alSet l k v) :
    (k' = k ∧ v' = v) ∨ ((k', v') ∈ l ∧ k' ≠ k) := by
  induction l with
  | nil =>
    simp only [alSet, List.mem_singleton] at hm
    injection hm with e1 e2
    exact Or.inl ⟨e1, e2⟩
  | cons x xs ih =>
    obtain ⟨k0, v0⟩ := x
    have hnd' : (keysOf xs).Nodup := (List.nodup_cons.mp hnd).2
    have hk0 : k0 ∉ keysOf xs := (List.nodup_cons.mp hnd).1
    by_cases hk : k0 = k
    · subst hk
      rw [show alSet ((k0, v0) :: xs) k0 v = (k0, v) :: xs from by
        unfold alSet
        rw [if_pos rfl]] at hm
      rcases List.mem_cons.mp hm with h | h
      · injection h with e1 e2
        exact Or.inl ⟨e1, e2⟩
      · refine Or.inr ⟨List.mem_cons_of_mem _ h, ?_⟩
        intro he
        exact hk0 (he ▸ List.mem_map_of_mem Prod.fst h)
    · simp only [alSet, hk, if_false] at hm
      rcases List.mem_cons.mp hm with h | h
      · have hmemc : (k', v') ∈ (k0, v0) :: xs := List.mem_cons.mpr (Or.inl h)
        injection h with e1 e2
        refine Or.inr ⟨hmemc, ?_⟩
        rw [e1]
        exact hk
      · rcases ih hnd' h with h' | h'
        · exact Or.inl h'
        · exact Or.inr ⟨List.mem_cons_of_mem _ h'.1, h'.2⟩

theorem alSet_keys_nodup {l : List (Str × PyVal)} (hnd : (keysOf l).Nodup)
    (k : Str) (v : PyVal) : (keysOf (alSet l k v)).Nodup := by
  rw [alSet_keys]
  split
  · exact hnd
  · rw [List.nodup_append]
    exact ⟨hnd, List.nodup_singleton k, by simpa using (by assumption : ¬ k ∈ keysOf l)⟩

/-- Two keyed lists with the same key sequence, duplicate-free keys, and
one-sided entry containment are equal. -/
theorem keyedEq : ∀ (c1 c2 : List (Str × PyVal)), keysOf c1 = keysOf c2 →
    (keysOf c1).Nodup → (∀ p ∈ c1, p ∈ c2) → c1 = c2 := by
  intro c1
  induction c1 with
  | nil =>
    intro c2 hkeys _ _
    cases c2 with
    | nil => rfl
    | cons y ys => exact absurd hkeys (by simp [keysOf])
  | cons x xs ih =>
    intro c2 hkeys hnd hsub
    obtain ⟨k1, a⟩ := x
    cases c2 with
    | nil => exact absurd hkeys (by simp [keysOf])
    | cons y ys =>
      obtain ⟨k2, b⟩ := y
      have hk12 : k1 = k2 ∧ keysOf xs = keysOf ys := by
        simpa [keysOf] using hkeys
      have hk1xs : k1 ∉ keysOf xs := (List.nodup_cons.mp hnd).1
      have hndxs : (keysOf xs).Nodup := (List.nodup_cons.mp hnd).2
      have hhead : (k1, a) ∈ (k2, b) :: ys := hsub (k1, a) (by simp)
      have hab : a = b := by
        rcases List.mem_cons.mp hhead with h | h
        · cases h
          rfl
        · exfalso
          have h1 : k1 ∈ keysOf ys := List.mem_map_of_mem Prod.fst h
          rw [← hk12.2] at h1
          exact hk1xs h1
      have htail : xs = ys := by
        refine ih ys hk12.2 hndxs ?_
        intro p hp
        have hpc2 : p ∈ (k2, b) :: ys := hsub p (List.mem_cons_of_mem _ hp)
        rcases List.mem_cons.mp hpc2 with h | h
        · exfalso
          have hp1 : p.1 ∈ keysOf xs := List.mem_map_of_mem Prod.fst hp
          rw [h] at hp1
          rw [← hk12.1] at hp1
          exact hk1xs hp1
        · exact h
      rw [hk12.1, hab, htail]

theorem alSet_congr {c1 c2 : List (Str × PyVal)} (k : Str) (v : PyVal)
    (hkeys : keysOf c1 = keysOf c2) (hnd : (keysOf c1).Nodup)
    (hsub : ∀ p ∈ c1, p.1 ≠ k → p ∈ c2) :
    alSet c1 k v = alSet c2 k v := by
  refine keyedEq _ _ ?_ ?_ ?_
  · rw [alSet_keys, alSet_keys, hkeys]
  · exact alSet_keys_nodup hnd k v
  · intro p hp
    obtain ⟨pk, pv⟩ := p
    rcases mem_alSet hnd hp with h | h
    · rw [h.1, h.2]
      exact mem_alSet_self c2 k v
    · exact mem_alSet_of_ne (hsub _ h.1 h.2) k v h.2

theorem dictUpdate_congr (k : Str) : ∀ (extra c1 c2 : List (Str × PyVal)),
    keysOf c1 = keysOf c2 → (keysOf c1).Nodup →
    (∀ p ∈ c1, p.1 ≠ k → p ∈ c2) → k ∈ keysOf extra →
    dictUpdate c1 extra = dictUpdate c2 extra := by
  intro extra
  induction extra with
  | nil =>
    intro c1 c2 _ _ _ hk
    exact absurd hk (by simp [keysOf])
  | cons x rest ih =>
    intro c1 c2 hkeys hnd hsub hk
    obtain ⟨k0, v0⟩ := x
    show dictUpdate (alSet c1 k0 v0) rest = dictUpdate (alSet c2 k0 v0) rest
    by_cases hkk : k0 = k
    · subst hkk
      rw [alSet_congr k0 v0 hkeys hnd hsub]
    · have hknd : (keysOf (alSet c1 k0 v0)).Nodup := alSet_keys_nodup hnd k0 v0
      have hkeys' : keysOf (alSet c1 k0 v0) = keysOf (alSet c2 k0 v0) := by
        rw [alSet_keys, alSet_keys, hkeys]
      have hsub' : ∀ p ∈ alSet c1 k0 v0, p.1 ≠ k → p ∈ alSet c2 k0 v0 := by
        intro p hp hpk
        obtain ⟨pk, pv⟩ := p
        rcases mem_alSet hnd hp with h | h
        · rw [h.1, h.2]
          exact mem_alSet_self c2 k0 v0
        · exact mem_alSet_of_ne (hsub _ h.1 hpk) k0 v0 h.2
      have hk' : k ∈ keysOf rest := by
        rcases List.mem_cons.mp (show k ∈ k0 :: keysOf rest from hk) with h | h
        · exact absurd h.symm hkk
        · exact h
      exact ih _ _ hkeys' hknd hsub' hk'

theorem dictUpdate_keys_nodup : ∀ (extra core : List (Str × PyVal)),
    (keysOf core).Nodup → (keysOf (dictUpdate core extra)).Nodup := by
  intro extra
  induction extra with
  | nil => intro core h; exact h
  | cons x rest ih =>
    intro core h
    exact ih _ (alSet_keys_nodup h x.1 x.2)

theorem mem_dictUpdate_of_absent : ∀ (extra core : List (Str × PyVal)) {k : Str}
    {v : PyVal}, (k, v) ∈ core → k ∉ keysOf extra → (k, v) ∈ dictUpdate core extra := by
  intro extra
  induction extra with
  | nil => intro core k v hm _; exact hm
  | cons x rest ih =>
    intro core k v hm habs
    obtain ⟨k0, v0⟩ := x
    have hne : k ≠ k0 := by
      intro h
      refine habs (show k ∈ k0 :: keysOf rest from ?_)
      rw [h]
      exact List.mem_cons_self _ _
    have habs' : k ∉ keysOf rest := by
      intro h
      exact habs (show k ∈ k0 :: keysOf rest from List.mem_cons_of_mem _ h)
    exact ih _ (mem_alSet_of_ne hm k0 v0 hne) habs'

/-- In a dict with duplicate-free keys the entry of a key is unique. -/
theorem keyed_unique {l : List (Str × PyVal)} (hnd : (keysOf l).Nodup) {k : Str}
    {a b : PyVal} (ha : (k, a) ∈ l) (hb : (k, b) ∈ l) : a = b := by
  induction l with
  | nil => exact absurd ha (by simp)
  | cons x xs ih =>
    obtain ⟨k0, v0⟩ := x
    have hk0 : k0 ∉ keysOf xs := (List.nodup_cons.mp hnd).1
    rcases List.mem_cons.mp ha with h1 | h1 <;> rcases List.mem_cons.mp hb with h2 | h2
    · injection h1 with e1a e2a
      injection h2 with e1b e2b
      rw [e2a, e2b]
    · exfalso
      injection h1 with e1a e2a
      have hmem : k ∈ keysOf xs := List.mem_map_of_mem Prod.fst h2
      rw [← e1a] at hk0
      exact hk0 hmem
    · exfalso
      injection h2 with e1b e2b
      have hmem : k ∈ keysOf xs := List.mem_map_of_mem Prod.fst h1
      rw [← e1b] at hk0
      exact hk0 hmem
    · exact ih (List.nodup_cons.mp hnd).2 h1 h2

theorem sortItems_perm (l : List (Str × PyVal)) : (sortItems l).Perm l :=
  List.perm_insertionSort _ l

theorem sortItems_keys_nodup {l : List (Str × PyVal)} (hnd : (keysOf l).Nodup) :
    (keysOf (sortItems l)).Nodup :=
  (((sortItems_perm l).map Prod.fst).nodup_iff).mpr hnd

theorem serializeFactors_inj {m1 m2 : List (Str × PyVal)}
    (h : serializeFactors m1 = serializeFactors m2) : sortItems m1 = sortItems m2 := by
  have hmap := listVal_inj h
  have hinj : Function.Injective fun kv : Str × PyVal => PyVal.pair (PyVal.str kv.1) kv.2 := by
    intro a b hab
    obtain ⟨h1, h2⟩ := PyVal.pair.inj hab
    exact Prod.ext (PyVal.str.inj h1) h2
  exact List.map_injective_iff.mpr hinj hmap

theorem coreFactors_keys (t : TargetRec) (dh : List PyVal) :
    keysOf (coreFactors t dh) =
      [("type").data, ("name").data, ("srcs").data, ("deps").data] := by
  rfl

theorem coreFactors_keys_nodup (t : TargetRec) (dh : List PyVal) :
    (keysOf (coreFactors t dh)).Nodup := by
  rw [coreFactors_keys]
  decide

theorem rule_hash_succ (db : List (Key × TargetRec)) (fuel : Nat) (t : TargetRec) :
    rule_hash db (fuel + 1) t =
      match depHashes db fuel t with
      | none => none
      | some dh =>
        some (md5sum (serializeFactors (dictUpdate (coreFactors t dh) t.data))) := by
  rfl


/-- Entries of the core factors survive a field update at a different
key: every core entry whose key is not `k` also occurs in the core
factors of a target agreeing on the fields other than `k`. -/
theorem coreFactors_update_sub (k : Str) (t1 t2 : TargetRec) (dh1 dh2 : List PyVal)
    (h1 : k ≠ ("type").data → t1.type = t2.type)
    (h2 : k ≠ ("name").data → t1.name = t2.name)
    (h3 : k ≠ ("srcs").data → t1.srcs = t2.srcs)
    (h4 : k ≠ ("deps").data → dh1 = dh2) :
    ∀ p ∈ coreFactors t1 dh1, p.1 ≠ k → p ∈ coreFactors t2 dh2 := by
  intro p hp hne
  simp only [coreFactors, List.mem_cons, List.not_mem_nil, or_false] at hp
  rcases hp with rfl | rfl | rfl | rfl
  · rw [h1 (Ne.symm hne)]
    simp [coreFactors]
  · rw [h2 (Ne.symm hne)]
    simp [coreFactors]
  · rw [h3 (Ne.symm hne)]
    simp [coreFactors]
  · rw [h4 (Ne.symm hne)]
    simp [coreFactors]

/-- C1 counterexample: two targets with identical type, name, srcs and
(empty) dependency-fingerprint lists but different `data` maps get
different digests, so equality of the four factors named by the claim
does not suffice. -/
theorem rule_hash_data_cex :
    rule_hash [] 1
        ⟨("t").data, ("a").data, [("x.cc").data], [], [], [((("k").data), PyVal.nil)]⟩ ≠
      rule_hash [] 1
        ⟨("t").data, ("a").data, [("x.cc").data], [], [],
          [((("k").data), PyVal.str [])]⟩ ∧
    depHashes [] 0
        ⟨("t").data, ("a").data, [("x.cc").data], [], [], [((("k").data), PyVal.nil)]⟩ =
      depHashes [] 0
        ⟨("t").data, ("a").data, [("x.cc").data], [], [],
          [((("k").data), PyVal.str [])]⟩ := by
  decide

/-- C1 (amended): targets agreeing on type, name, srcs, extra factors
(`data`) and the per-dependency fingerprint list (declaration order) get
identical digests; if additionally the extra factors do not override the
`srcs` key, changing the declared sources changes the digest; and the
digest never depends on `expanded_deps` — the fingerprint recursion
ranges over `deps` only. -/
theorem rule_hash_content :
    (∀ (db : List (Key × TargetRec)) (fuel : Nat) (t1 t2 : TargetRec),
      t1.type = t2.type → t1.name = t2.name → t1.srcs = t2.srcs → t1.data = t2.data →
      depHashes db fuel t1 = depHashes db fuel t2 →
      rule_hash db (fuel + 1) t1 = rule_hash db (fuel + 1) t2) ∧
    (∀ (db : List (Key × TargetRec)) (fuel : Nat) (t : TargetRec) (srcs2 : List Str)
        (dh : List PyVal),
      (keysOf t.data).Nodup → ("srcs").data ∉ keysOf t.data →
      t.srcs ≠ srcs2 → depHashes db fuel t = some dh →
      rule_hash db (fuel + 1) t ≠ rule_hash db (fuel + 1) { t with srcs := srcs2 }) ∧
    (∀ (db : List (Key × TargetRec)) (fuel : Nat) (t : TargetRec) (e : List Key),
      rule_hash db fuel { t with expanded_deps := e } = rule_hash db fuel t) := by
  refine ⟨?_, ?_, ?_⟩
  · intro db fuel t1 t2 hty hna hsr hda hdh
    rw [rule_hash_succ, rule_hash_succ, ← hdh]
    cases hdh1 : depHashes db fuel t1 with
    | none => rfl
    | some dh =>
      simp only
      unfold coreFactors
      rw [hty, hna, hsr, hda]
  · intro db fuel t srcs2 dh hnd habs hne heq
    intro hcontra
    apply hne
    have hdh2 : depHashes db fuel { t with srcs := srcs2 } = some dh := heq
    rw [rule_hash_succ, rule_hash_succ, heq, hdh2] at hcontra
    simp only [Option.some.injEq, md5sum] at hcontra
    have hsort := serializeFactors_inj hcontra
    have hm1 : ((("srcs").data), listVal (t.srcs.map PyVal.str)) ∈
        dictUpdate (coreFactors t dh) t.data :=
      mem_dictUpdate_of_absent _ _ (by simp [coreFactors]) habs
    have hm2 : ((("srcs").data), listVal (srcs2.map PyVal.str)) ∈
        dictUpdate (coreFactors { t with srcs := srcs2 } dh)
          ({ t with srcs := srcs2 }).data :=
      mem_dictUpdate_of_absent _ _ (by simp [coreFactors]) habs
    have hm1s : ((("srcs").data), listVal (t.srcs.map PyVal.str)) ∈
        sortItems (dictUpdate (coreFactors t dh) t.data) :=
      ((sortItems_perm _).mem_iff).mpr hm1
    rw [hsort] at hm1s
    have hm1d : ((("srcs").data), listVal (t.srcs.map PyVal.str)) ∈
        dictUpdate (coreFactors { t with srcs := srcs2 } dh)
          ({ t with srcs := srcs2 }).data :=
      ((sortItems_perm _).mem_iff).mp hm1s
    have hnd2 : (keysOf (dictUpdate (coreFactors { t with srcs := srcs2 } dh)
        ({ t with srcs := srcs2 }).data)).Nodup :=
      dictUpdate_keys_nodup _ _ (coreFactors_keys_nodup _ _)
    exact map_str_inj (listVal_inj (keyed_unique hnd2 hm1d hm2))
  · intro db fuel t e
    cases fuel with
    | zero => rfl
    | succ f =>
      rw [rule_hash_succ, rule_hash_succ]
      have hdh : depHashes db f { t with expanded_deps := e } = depHashes db f t := rfl
      rw [hdh]
      cases h : depHashes db f t with
      | none => rfl
      | some dh => rfl

theorem rule_hash_content_w :
    rule_hash [((("a").data, ("d1").data),
        ⟨("t").data, ("d").data, [], [], [], []⟩),
      ((("a").data, ("d2").data), ⟨("t").data, ("d").data, [], [], [], []⟩)] 2
        ⟨("t").data, ("x").data, [], [(("a").data, ("d1").data)], [], []⟩ =
      rule_hash [((("a").data, ("d1").data), ⟨("t").data, ("d").data, [], [], [], []⟩),
        ((("a").data, ("d2").data), ⟨("t").data, ("d").data, [], [], [], []⟩)] 2
        ⟨("t").data, ("x").data, [], [(("a").data, ("d2").data)], [], []⟩ ∧
    rule_hash [] 1 ⟨("t").data, ("a").data, [("x.cc").data], [], [], []⟩ ≠
      rule_hash [] 1 ⟨("t").data, ("a").data, [("y.cc").data], [], [], []⟩ ∧
    rule_hash [] 1 ⟨("t").data, ("a").data, [("x.cc").data], [],
        [(("#").data, ("z").data)], []⟩ =
      rule_hash [] 1 ⟨("t").data, ("a").data, [("x.cc").data], [], [], []⟩ :=
  ⟨rule_hash_content.1 _ 1 _ _ rfl rfl rfl rfl (by decide),
   rule_hash_content.2.1 [] 0 ⟨("t").data, ("a").data, [("x.cc").data], [], [], []⟩
     [("y.cc").data] [] (by decide) (by decide) (by decide) rfl,
   rule_hash_content.2.2 [] 1 ⟨("t").data, ("a").data, [("x.cc").data], [], [], []⟩
     [(("#").data, ("z").data)]⟩

/-- C9: `factors.update(_rule_hash_factors())` gives the extra factors
(the `data` map by default) overriding semantics: when `data` contains
one of the core keys `type`, `name`, `srcs` or `deps`, the digest no
longer depends on the corresponding core attribute. -/
theorem rule_hash_factor_override :
    (∀ (db : List (Key × TargetRec)) (fuel : Nat) (t : TargetRec) (ty1 ty2 : Str),
      ("type").data ∈ keysOf t.data →
      rule_hash db (fuel + 1) { t with type := ty1 } =
        rule_hash db (fuel + 1) { t with type := ty2 }) ∧
    (∀ (db : List (Key × TargetRec)) (fuel : Nat) (t : TargetRec) (n1 n2 : Str),
      ("name").data ∈ keysOf t.data →
      rule_hash db (fuel + 1) { t with name := n1 } =
        rule_hash db (fuel + 1) { t with name := n2 }) ∧
    (∀ (db : List (Key × TargetRec)) (fuel : Nat) (t : TargetRec) (s1 s2 : List Str),
      ("srcs").data ∈ keysOf t.data →
      rule_hash db (fuel + 1) { t with srcs := s1 } =
        rule_hash db (fuel + 1) { t with srcs := s2 }) ∧
    (∀ (db : List (Key × TargetRec)) (fuel : Nat) (t : TargetRec) (d1 d2 : List Key)
        (dh1 dh2 : List PyVal),
      ("deps").data ∈ keysOf t.data →
      depHashes db fuel { t with deps := d1 } = some dh1 →
      depHashes db fuel { t with deps := d2 } = some dh2 →
      rule_hash db (fuel + 1) { t with deps := d1 } =
        rule_hash db (fuel + 1) { t with deps := d2 }) := by
  refine ⟨?_, ?_, ?_, ?_⟩
  · intro db fuel t ty1 ty2 hk
    rw [rule_hash_succ, rule_hash_succ]
    have hdh : depHashes db fuel { t with type := ty1 } =
        depHashes db fuel { t with type := ty2 } := rfl
    rw [hdh]
    cases h : depHashes db fuel { t with type := ty2 } with
    | none => rfl
    | some dh =>
      simp only
      have hupd : dictUpdate (coreFactors { t with type := ty1 } dh) t.data =
          dictUpdate (coreFactors { t with type := ty2 } dh) t.data :=
        dictUpdate_congr (("type").data) t.data _ _ rfl (coreFactors_keys_nodup _ _)
          (coreFactors_update_sub _ _ _ _ _ (fun h => absurd rfl h) (fun _ => rfl)
            (fun _ => rfl) (fun _ => rfl)) hk
      rw [hupd]
  · intro db fuel t n1 n2 hk
    rw [rule_hash_succ, rule_hash_succ]
    have hdh : depHashes db fuel { t with name := n1 } =
        depHashes db fuel { t with name := n2 } := rfl
    rw [hdh]
    cases h : depHashes db fuel { t with name := n2 } with
    | none => rfl
    | some dh =>
      simp only
      have hupd : dictUpdate (coreFactors { t with name := n1 } dh) t.data =
          dictUpdate (coreFactors { t with name := n2 } dh) t.data :=
        dictUpdate_congr (("name").data) t.data _ _ rfl (coreFactors_keys_nodup _ _)
          (coreFactors_update_sub _ _ _ _ _ (fun _ => rfl) (fun h => absurd rfl h)
            (fun _ => rfl) (fun _ => rfl)) hk
      rw [hupd]
  · intro db fuel t s1 s2 hk
    rw [rule_hash_succ, rule_hash_succ]
    have hdh : depHashes db fuel { t with srcs := s1 } =
        depHashes db fuel { t with srcs := s2 } := rfl
    rw [hdh]
    cases h : depHashes db fuel { t with srcs := s2 } with
    | none => rfl
    | some dh =>
      simp only
      have hupd : dictUpdate (coreFactors { t with srcs := s1 } dh) t.data =
          dictUpdate (coreFactors { t with srcs := s2 } dh) t.data :=
        dictUpdate_congr (("srcs").data) t.data _ _ rfl (coreFactors_keys_nodup _ _)
          (coreFactors_update_sub _ _ _ _ _ (fun _ => rfl) (fun _ => rfl)
            (fun h => absurd rfl h) (fun _ => rfl)) hk
      rw [hupd]
  · intro db fuel t d1 d2 dh1 dh2 hk h1 h2
    rw [rule_hash_succ, rule_hash_succ, h1, h2]
    simp only
    have hupd : dictUpdate (coreFactors { t with deps := d1 } dh1) t.data =
        dictUpdate (coreFactors { t with deps := d2 } dh2) t.data :=
      dictUpdate_congr (("deps").data) t.data _ _ rfl (coreFactors_keys_nodup _ _)
        (coreFactors_update_sub _ _ _ _ _ (fun _ => rfl) (fun _ => rfl)
          (fun _ => rfl) (fun h => absurd rfl h)) hk
    rw [hupd]

theorem rule_hash_factor_override_w :
    rule_hash [] 1 ⟨("t1").data, ("a").data, [("x.cc").data], [], [],
        [((("type").data), PyVal.nil), ((("srcs").data), PyVal.nil)]⟩ =
      rule_hash [] 1 ⟨("t2").data, ("a").data, [("x.cc").data], [], [],
        [((("type").data), PyVal.nil), ((("srcs").data), PyVal.nil)]⟩ ∧
    rule_hash [] 1 ⟨("t").data, ("a").data, [("x.cc").data], [], [],
        [((("type").data), PyVal.nil), ((("srcs").data), PyVal.nil)]⟩ =
      rule_hash [] 1 ⟨("t").data, ("a").data, [("y.cc").data], [], [],
        [((("type").data), PyVal.nil), ((("srcs").data), PyVal.nil)]⟩ :=
  ⟨rule_hash_factor_override.1 [] 0
      ⟨("t1").data, ("a").data, [("x.cc").data], [], [],
        [((("type").data), PyVal.nil), ((("srcs").data), PyVal.nil)]⟩
      (("t1").data) (("t2").data) (by decide),
   rule_hash_factor_override.2.2.1 [] 0
      ⟨("t").data, ("a").data, [("x.cc").data], [], [],
        [((("type").data), PyVal.nil), ((("srcs").data), PyVal.nil)]⟩
      [("x.cc").data] [("y.cc").data] (by decide)⟩


/-! ### Path component lemmas for `normpath` -/

theorem splitSlash_ne_nil (l : Str) : splitSlash l ≠ [] := by
  cases l with
  | nil => simp [splitSlash]
  | cons c rest =>
    unfold splitSlash
    split
    · simp
    · split
      · simp
      · simp

theorem mem_splitSlash_no_slash (l : Str) : ∀ x ∈ splitSlash l, '/' ∉ x := by
  induction l with
  | nil =>
    intro x hx
    simp only [splitSlash, List.mem_singleton] at hx
    simp [hx]
  | cons c rest ih =>
    intro x hx
    unfold splitSlash at hx
    by_cases hc : c = '/'
    · rw [if_pos hc] at hx
      rcases List.mem_cons.mp hx with h | h
      · simp [h]
      · exact ih x h
    · rw [if_neg hc] at hx
      cases hsp : splitSlash rest with
      | nil => exact absurd hsp (splitSlash_ne_nil rest)
      | cons h0 t0 =>
        rw [hsp] at hx
        rcases List.mem_cons.mp hx with h | h
        · subst h
          intro hmem
          rcases List.mem_cons.mp hmem with h' | h'
          · exact hc h'.symm
          · have := ih h0 (by rw [hsp]; exact List.mem_cons_self _ _)
            exact this h'
        · exact ih x (by rw [hsp]; exact List.mem_cons_of_mem _ h)

theorem splitSlash_of_no_slash (x : Str) (hx : '/' ∉ x) : splitSlash x = [x] := by
  induction x with
  | nil => rfl
  | cons c rest ih =>
    have hc : ¬ c = '/' := by
      intro h
      exact hx (by rw [h]; exact List.mem_cons_self _ _)
    have hrest : '/' ∉ rest := fun h => hx (List.mem_cons_of_mem _ h)
    unfold splitSlash
    rw [if_neg hc, ih hrest]

theorem splitSlash_append (x : Str) (hx : '/' ∉ x) (r : Str) :
    splitSlash (x ++ '/' :: r) = x :: splitSlash r := by
  induction x with
  | nil =>
    show splitSlash ('/' :: r) = [] :: splitSlash r
    simp only [splitSlash]
    simp
  | cons c rest ih =>
    have hc : ¬ c = '/' := by
      intro h
      exact hx (by rw [h]; exact List.mem_cons_self _ _)
    have hrest : '/' ∉ rest := fun h => hx (List.mem_cons_of_mem _ h)
    show splitSlash (c :: (rest ++ '/' :: r)) = (c :: rest) :: splitSlash r
    simp only [splitSlash]
    rw [if_neg hc, ih hrest]

theorem splitSlash_joinSlash : ∀ (L : List Str), L ≠ [] → (∀ x ∈ L, '/' ∉ x) →
    splitSlash (joinSlash L) = L := by
  intro L
  induction L with
  | nil => intro h; exact absurd rfl h
  | cons x xs ih =>
    intro _ hall
    cases xs with
    | nil =>
      show splitSlash (joinSlash [x]) = [x]
      rw [show joinSlash [x] = x from rfl]
      exact splitSlash_of_no_slash x (hall x (by simp))
    | cons y t =>
      rw [show joinSlash (x :: y :: t) = x ++ '/' :: joinSlash (y :: t) from rfl]
      rw [splitSlash_append x (hall x (by simp)) _]
      rw [ih (by simp) (fun z hz => hall z (List.mem_cons_of_mem _ hz))]

theorem joinSlash_ne_nil (x : Str) (xs : List Str) (hx : x ≠ []) :
    joinSlash (x :: xs) ≠ [] := by
  cases xs with
  | nil => exact hx
  | cons y t =>
    rw [show joinSlash (x :: y :: t) = x ++ '/' :: joinSlash (y :: t) from rfl]
    intro h
    cases x with
    | nil => exact hx rfl
    | cons c r => exact List.noConfusion h

/-- The shape invariant of `posixpath.normpath`'s accumulator on relative
paths: a run of `'..'` components followed by ordinary components. -/
def GoodComps (L : List Str) : Prop :=
  ∃ k rest, L = List.replicate k (("..").data) ++ rest ∧
    ∀ c ∈ rest, c ≠ [] ∧ c ≠ (".").data ∧ c ≠ ("..").data

theorem goodComps_nil : GoodComps [] :=
  ⟨0, [], rfl, by simp⟩

theorem getLast?_replicate_succ {α : Type} (k : Nat) (a : α) :
    (List.replicate (k + 1) a).getLast? = some a := by
  induction k with
  | zero => rfl
  | succ k ih =>
    rw [show List.replicate (k + 2) a = a :: a :: List.replicate k a from rfl,
      List.getLast?_cons_cons]
    exact ih

theorem dropLast_append_ne_nil {α : Type} : ∀ (l1 l2 : List α), l2 ≠ [] →
    (l1 ++ l2).dropLast = l1 ++ l2.dropLast := by
  intro l1 l2 h2
  induction l1 with
  | nil => rfl
  | cons a t ih =>
    cases ht : t ++ l2 with
    | nil =>
      exfalso
      exact h2 (List.append_eq_nil.mp ht).2
    | cons x xs =>
      rw [List.cons_append, ht, show (a :: x :: xs).dropLast = a :: (x :: xs).dropLast
        from rfl, ← ht, ih]
      rfl

theorem normpathStep_good {acc : List Str} (h : GoodComps acc) (c : Str) :
    GoodComps (normpathStep false acc c) := by
  obtain ⟨k, rest, hacc, hrest⟩ := h
  unfold normpathStep
  by_cases h1 : c = [] ∨ c = (".").data
  · rw [if_pos h1]
    exact ⟨k, rest, hacc, hrest⟩
  · rw [if_neg h1]
    by_cases h2 : c = ("..").data
    · cases hr : rest with
      | nil =>
        rw [hr, List.append_nil] at hacc
        have hcond : c ≠ ("..").data ∨ (¬ (false : Bool) = true ∧ acc = []) ∨
            (acc ≠ [] ∧ acc.getLast? = some (("..").data)) := by
          cases k with
          | zero =>
            refine Or.inr (Or.inl ⟨by simp, ?_⟩)
            rw [hacc]
            rfl
          | succ k' =>
            refine Or.inr (Or.inr ⟨?_, ?_⟩)
            · rw [hacc]
              simp
            · rw [hacc]
              exact getLast?_replicate_succ k' _
        rw [if_pos hcond, hacc, h2, ← List.replicate_succ']
        exact ⟨k + 1, [], by rw [List.append_nil], by simp⟩
      | cons r0 rt =>
        have hrne : rest ≠ [] := by
          rw [hr]
          simp
        have haccne : acc ≠ [] := by
          rw [hacc]
          intro hc
          exact hrne (List.append_eq_nil.mp hc).2
        have hlast_ne : acc.getLast? ≠ some (("..").data) := by
          rw [hacc, List.getLast?_append_of_ne_nil _ hrne,
            List.getLast?_eq_getLast_of_ne_nil hrne]
          intro hc
          exact (hrest _ (List.getLast_mem hrne)).2.2 (Option.some.inj hc)
        have hcond : ¬ (c ≠ ("..").data ∨ (¬ (false : Bool) = true ∧ acc = []) ∨
            (acc ≠ [] ∧ acc.getLast? = some (("..").data))) := by
          intro hor
          rcases hor with h | h | h
          · exact h h2
          · exact haccne h.2
          · exact hlast_ne h.2
        rw [if_neg hcond, if_pos haccne, hacc, dropLast_append_ne_nil _ _ hrne]
        refine ⟨k, rest.dropLast, rfl, ?_⟩
        intro x hx
        exact hrest x (List.mem_of_mem_dropLast hx)
    · have hcond : c ≠ ("..").data ∨ (¬ (false : Bool) = true ∧ acc = []) ∨
          (acc ≠ [] ∧ acc.getLast? = some (("..").data)) := Or.inl h2
      rw [if_pos hcond]
      exact ⟨k, rest ++ [c], by rw [hacc, List.append_assoc], by
        intro x hx
        rcases List.mem_append.mp hx with h | h
        · exact hrest x h
        · rw [List.mem_singleton.mp h]
          exact ⟨fun hc => h1 (Or.inl hc), fun hc => h1 (Or.inr hc), h2⟩⟩


theorem foldl_good (comps : List Str) : ∀ acc, GoodComps acc →
    GoodComps (comps.foldl (normpathStep false) acc) := by
  induction comps with
  | nil => intro acc h; exact h
  | cons c cs ih =>
    intro acc h
    exact ih _ (normpathStep_good h c)

theorem normpathStep_append_normal (acc : List Str) (c : Str)
    (h1 : c ≠ []) (h2 : c ≠ (".").data) (h3 : c ≠ ("..").data) :
    normpathStep false acc c = acc ++ [c] := by
  unfold normpathStep
  rw [if_neg (by
    intro h
    rcases h with h | h
    · exact h1 h
    · exact h2 h), if_pos (Or.inl h3)]

theorem foldl_append_normal (rest : List Str)
    (hres : ∀ c ∈ rest, c ≠ [] ∧ c ≠ (".").data ∧ c ≠ ("..").data) :
    ∀ acc, rest.foldl (normpathStep false) acc = acc ++ rest := by
  induction rest with
  | nil => intro acc; simp
  | cons c cs ih =>
    intro acc
    rw [List.foldl_cons, normpathStep_append_normal acc c (hres c (by simp)).1
      (hres c (by simp)).2.1 (hres c (by simp)).2.2,
      ih (fun x hx => hres x (List.mem_cons_of_mem _ hx)) (acc ++ [c])]
    simp

theorem normpathStep_dotdot (j : Nat) :
    normpathStep false (List.replicate j (("..").data)) (("..").data) =
      List.replicate (j + 1) (("..").data) := by
  unfold normpathStep
  rw [if_neg (by
    intro h
    rcases h with h | h
    · exact absurd h (by decide)
    · exact absurd h (by decide))]
  rw [if_pos (by
    cases j with
    | zero => exact Or.inr (Or.inl ⟨by simp, rfl⟩)
    | succ j' => exact Or.inr (Or.inr ⟨by simp, getLast?_replicate_succ j' _⟩))]
  rw [← List.replicate_succ']

theorem foldl_dotdot (k : Nat) : ∀ j,
    (List.replicate k (("..").data)).foldl (normpathStep false)
      (List.replicate j (("..").data)) = List.replicate (j + k) (("..").data) := by
  induction k with
  | zero => intro j; simp
  | succ k ih =>
    intro j
    rw [List.replicate_succ, List.foldl_cons, normpathStep_dotdot j, ih (j + 1)]
    congr 1
    omega

theorem foldl_replay {L : List Str} (h : GoodComps L) :
    L.foldl (normpathStep false) [] = L := by
  obtain ⟨k, rest, hL, hrest⟩ := h
  rw [hL, List.foldl_append,
    show ([] : List Str) = List.replicate 0 (("..").data) from rfl, foldl_dotdot k 0,
    foldl_append_normal rest hrest]
  simp

theorem mem_normpathStep {abs : Bool} {acc : List Str} {c x : Str}
    (h : x ∈ normpathStep abs acc c) :
    x ∈ acc ∨ (x = c ∧ c ≠ [] ∧ c ≠ (".").data) := by
  unfold normpathStep at h
  by_cases h1 : c = [] ∨ c = (".").data
  · rw [if_pos h1] at h
    exact Or.inl h
  · rw [if_neg h1] at h
    by_cases h2 : c ≠ ("..").data ∨ (¬ abs = true ∧ acc = []) ∨
        (acc ≠ [] ∧ acc.getLast? = some (("..").data))
    · rw [if_pos h2] at h
      rcases List.mem_append.mp h with hm | hm
      · exact Or.inl hm
      · exact Or.inr ⟨List.mem_singleton.mp hm, fun hc => h1 (Or.inl hc),
          fun hc => h1 (Or.inr hc)⟩
    · rw [if_neg h2] at h
      by_cases h3 : acc ≠ []
      · rw [if_pos h3] at h
        exact Or.inl (List.mem_of_mem_dropLast h)
      · rw [if_neg h3] at h
        exact Or.inl h

theorem mem_foldl_normpathStep {abs : Bool} (comps : List Str) : ∀ acc x,
    x ∈ comps.foldl (normpathStep abs) acc →
    x ∈ acc ∨ (x ∈ comps ∧ x ≠ [] ∧ x ≠ (".").data) := by
  induction comps with
  | nil =>
    intro acc x h
    exact Or.inl h
  | cons c cs ih =>
    intro acc x h
    rw [List.foldl_cons] at h
    rcases ih _ x h with h' | h'
    · rcases mem_normpathStep h' with h'' | h''
      · exact Or.inl h''
      · obtain ⟨hxc, hc1, hc2⟩ := h''
        subst hxc
        exact Or.inr ⟨List.mem_cons_self _ _, hc1, hc2⟩
    · exact Or.inr ⟨List.mem_cons_of_mem _ h'.1, h'.2⟩

theorem head_of_startsWithL {c : Char} {cs l : Str} (h : startsWithL (c :: cs) l = true) :
    l.head? = some c := by
  cases l with
  | nil => exact absurd h (by simp [startsWithL])
  | cons a t =>
    simp only [startsWithL, Bool.and_eq_true] at h
    have hca : c = a := of_decide_eq_true h.1
    subst hca
    rfl

theorem normpath_rel_eq (q : Str) (h0 : q ≠ []) (h1 : startsWithL (("/").data) q = false) :
    normpath q =
      if joinSlash ((splitSlash q).foldl (normpathStep false) []) = [] then (".").data
      else joinSlash ((splitSlash q).foldl (normpathStep false) []) := by
  unfold normpath
  rw [if_neg h0]
  simp [h1]

theorem normpath_abs_head (q : Str) (h1 : startsWithL (("/").data) q = true) :
    (normpath q).head? = some '/' := by
  have h0 : q ≠ [] := by
    intro hq
    rw [hq] at h1
    exact absurd h1 (by decide)
  unfold normpath
  rw [if_neg h0]
  simp only [h1, if_true]
  by_cases h2 : startsWithL (("//").data) q = true ∧ ¬ startsWithL (("///").data) q = true
  · rw [if_pos h2]
    simp
  · rw [if_neg h2]
    simp

theorem ite_dot_ne_nil (p : Str) : (if p = [] then (".").data else p) ≠ [] := by
  split
  · simp
  · assumption

theorem normpath_ne_nil (q : Str) : normpath q ≠ [] := by
  unfold normpath
  by_cases h0 : q = []
  · rw [if_pos h0]
    simp
  · rw [if_neg h0]
    exact ite_dot_ne_nil _

theorem joinSlash_cons_decomp (x0 : Str) (xs : List Str) :
    ∃ tail, joinSlash (x0 :: xs) = x0 ++ tail := by
  cases xs with
  | nil => exact ⟨[], by simp [joinSlash]⟩
  | cons y t => exact ⟨'/' :: joinSlash (y :: t), rfl⟩

theorem startsWith_slash_append_false {x0 : Str} (tail : Str) (hne : x0 ≠ [])
    (hns : '/' ∉ x0) : startsWithL (("/").data) (x0 ++ tail) = false := by
  cases x0 with
  | nil => exact absurd rfl hne
  | cons c r =>
    have hc : ¬ ('/' = c) := by
      intro h
      exact hns (by rw [← h]; exact List.mem_cons_self _ _)
    show startsWithL ['/'] (c :: (r ++ tail)) = false
    simp [startsWithL, hc]

/-- `normpath` is idempotent on outputs whose head is not `'/'` (relative
canonical paths). -/
theorem normpath_idem_rel (q : Str) (h : (normpath q).head? ≠ some '/') :
    normpath (normpath q) = normpath q := by
  have hq1 : startsWithL (("/").data) q = false := by
    cases hh : startsWithL (("/").data) q
    · rfl
    · exact absurd (normpath_abs_head q hh) h
  by_cases h0 : q = []
  · rw [h0]
    decide
  · rw [normpath_rel_eq q h0 hq1]
    by_cases hj : joinSlash ((splitSlash q).foldl (normpathStep false) []) = []
    · rw [if_pos hj]
      decide
    · rw [if_neg hj]
      have hgood : GoodComps ((splitSlash q).foldl (normpathStep false) []) :=
        foldl_good _ _ goodComps_nil
      have helts : ∀ x ∈ (splitSlash q).foldl (normpathStep false) [], x ≠ [] ∧ '/' ∉ x := by
        intro x hx
        rcases mem_foldl_normpathStep _ _ x hx with h' | h'
        · exact absurd h' (List.not_mem_nil x)
        · exact ⟨h'.2.1, mem_splitSlash_no_slash q x h'.1⟩
      have hncne : (splitSlash q).foldl (normpathStep false) [] ≠ [] := by
        intro hc
        rw [hc] at hj
        exact hj rfl
      obtain ⟨x0, xs, hx0⟩ : ∃ x0 xs,
          (splitSlash q).foldl (normpathStep false) [] = x0 :: xs := by
        cases hcc : (splitSlash q).foldl (normpathStep false) [] with
        | nil => exact absurd hcc hncne
        | cons a b => exact ⟨a, b, rfl⟩
      have hx0mem : x0 ∈ (splitSlash q).foldl (normpathStep false) [] := by
        rw [hx0]
        exact List.mem_cons_self _ _
      have hjoin_head :
          startsWithL (("/").data) (joinSlash ((splitSlash q).foldl (normpathStep false) []))
            = false := by
        rw [hx0]
        obtain ⟨tail, htail⟩ := joinSlash_cons_decomp x0 xs
        rw [htail]
        exact startsWith_slash_append_false tail (helts x0 hx0mem).1
          (helts x0 hx0mem).2
      rw [normpath_rel_eq _ hj hjoin_head,
        splitSlash_joinSlash _ hncne (fun x hx => (helts x hx).2), foldl_replay hgood,
        if_neg hj]


theorem rsplitColon_snd_no_colon (t : Str) : ':' ∉ (rsplitColon t).2 := by
  intro h
  have h' : ':' ∈ t.reverse.takeWhile (fun c => decide (c ≠ ':')) :=
    List.mem_reverse.mp h
  have := List.mem_takeWhile_imp h'
  simp at this

theorem _normalize_one_shape {s d r : Str} (h : _normalize_one s d = some r) :
    ∃ q n, r = normpath q ++ ':' :: n ∧ ':' ∉ n := by
  unfold _normalize_one at h
  obtain ⟨t, ht, hbody⟩ := Option.map_eq_some'.mp h
  by_cases hc : ':' ∈ t
  · simp only [hc, if_true] at hbody
    exact ⟨(rsplitColon t).1, (rsplitColon t).2, hbody.symm, rsplitColon_snd_no_colon t⟩
  · by_cases he : endsWithL (("...").data) t = true
    · simp only [hc, if_false, he, if_true, ite_true, ite_false] at hbody
      exact ⟨t.take (t.length - 3), ("...").data, hbody.symm, by decide⟩
    · simp only [hc, if_false, he, ite_true, ite_false] at hbody
      exact ⟨t, ("*").data, hbody.symm, by decide⟩

theorem _normalize_one_round2 (q n : Str) (hn : ':' ∉ n)
    (hh : (normpath q ++ ':' :: n).head? ≠ some '/') :
    _normalize_one (normpath q ++ ':' :: n) ((".").data) =
      some (normpath q ++ ':' :: n) := by
  have hpne : normpath q ≠ [] := normpath_ne_nil q
  have happ : (normpath q ++ ':' :: n).head? = (normpath q).head? := by
    cases hp : normpath q with
    | nil => exact absurd hp hpne
    | cons c r => rfl
  have hhead : (normpath q).head? ≠ some '/' := by
    rw [← happ]
    exact hh
  have hsw2 : ¬ startsWithL (("//").data) (normpath q ++ ':' :: n) = true := by
    intro hs
    exact hh (head_of_startsWithL hs)
  have hsw1 : ¬ startsWithL (("/").data) (normpath q ++ ':' :: n) = true := by
    intro hs
    exact hh (head_of_startsWithL hs)
  have hmem : ':' ∈ normpath q ++ ':' :: n := by
    simp
  unfold _normalize_one
  rw [if_neg hsw2, if_neg hsw1, if_neg (show ¬ ((".").data ≠ (".").data) from
    fun hcon => hcon rfl)]
  simp only [Option.map_some', hmem, if_true]
  rw [rsplitColon_append _ _ hn, normpath_idem_rel q hhead]

theorem normalize_singleton (x w : Str) :
    normalize [x] w = (_normalize_one x w).map (fun r => [r]) := by
  unfold normalize
  cases h : _normalize_one x w <;>
    simp [List.mapM, List.mapM.loop, h]

/-- C7 counterexample: `////a:b` is accepted by `normalize` (no fatal
error), but its canonical form `//a:b` normalizes again to `a:b`, so
`normalize` is not idempotent on every accepted reference. -/
theorem normalize_extra_slashes_cex :
    normalize [("////a:b").data] ((".").data) = some [("//a:b").data] ∧
    normalize [("//a:b").data] ((".").data) = some [("a:b").data] ∧
    ("//a:b").data ≠ ("a:b").data := by
  decide

/-- C7 (amended): for every reference and working directory whose
canonical form does not begin with `'/'` (true of every relative input;
only inputs with three or more leading slashes escape this),
`normalize([normalize([s], d)[0]], '.') = normalize([s], d)`. -/
theorem normalize_idempotent (s d r : Str)
    (h1 : normalize [s] d = some [r]) (h2 : r.head? ≠ some '/') :
    normalize [r] ((".").data) = normalize [s] d := by
  have h1' : _normalize_one s d = some r := by
    rw [normalize_singleton] at h1
    obtain ⟨a, ha, hlist⟩ := Option.map_eq_some'.mp h1
    have : a = r := by
      injection hlist with h1 h2
    rw [← this]
    exact ha
  obtain ⟨q, n, hr, hn⟩ := _normalize_one_shape h1'
  rw [normalize_singleton, hr, _normalize_one_round2 q n hn (hr ▸ h2), h1, hr]
  rfl

theorem normalize_idempotent_w :
    normalize [("lib/util:helper").data] ((".").data) =
      normalize [("//lib/util:helper").data] (("app/service").data) :=
  normalize_idempotent (("//lib/util:helper").data) (("app/service").data)
    (("lib/util:helper").data) (by decide) (by decide)


/-! ### Lemmas about the `LOCATION_RE` matcher -/

theorem length_takeWhile_le {α : Type} (p : α → Bool) :
    ∀ l : List α, (l.takeWhile p).length ≤ l.length := by
  intro l
  induction l with
  | nil => simp
  | cons a t ih =>
    rw [List.takeWhile_cons]
    split
    · simpa using ih
    · simp

theorem mem_of_mem_dropWhile {α : Type} (p : α → Bool) :
    ∀ (l : List α) (x : α), x ∈ l.dropWhile p → x ∈ l := by
  intro l
  induction l with
  | nil =>
    intro x h
    simp at h
  | cons a t ih =>
    intro x h
    rw [List.dropWhile_cons] at h
    split at h
    · exact List.mem_cons_of_mem _ (ih x h)
    · exact h

theorem tryPlus_shape (a after : Str) : ∀ (m : Nat) (g1 g2 rem : Str),
    tryPlus a after m = some (g1, g2, rem) →
    m ≤ (after.takeWhile (fun c => ¬ isSpaceCh c)).length →
    ∃ b, g1 = a ++ ':' :: b ∧ b ≠ [] ∧ ∀ c ∈ b, isSpaceCh c = false := by
  intro m
  induction m with
  | zero =>
    intro g1 g2 rem h _
    exact absurd h (by simp [tryPlus])
  | succ m ih =>
    intro g1 g2 rem h hm
    rw [show tryPlus a after (m + 1) =
        (match matchOptTail (after.drop (m + 1)) with
        | some (g2', rem') => some (a ++ ':' :: after.take (m + 1), g2', rem')
        | none => tryPlus a after m) from rfl] at h
    cases hopt : matchOptTail (after.drop (m + 1)) with
    | some pr =>
      obtain ⟨g2', rem'⟩ := pr
      rw [hopt] at h
      simp only [Option.some.injEq, Prod.mk.injEq] at h
      refine ⟨after.take (m + 1), by rw [← h.1], ?_, ?_⟩
      · have hlen : (after.take (m + 1)).length = m + 1 := by
          rw [List.length_take]
          have hle : m + 1 ≤ after.length :=
            le_trans hm (length_takeWhile_le _ after)
          omega
        intro hc
        rw [hc] at hlen
        simp at hlen
      · intro c hc
        have htw : after.take (m + 1) =
            (after.takeWhile (fun c => ¬ isSpaceCh c)).take (m + 1) := by
          conv_lhs => rw [← List.takeWhile_append_dropWhile
            (p := fun c => ¬ isSpaceCh c) (l := after)]
          rw [List.take_append_of_le_length hm]
        rw [htw] at hc
        have hmem : c ∈ after.takeWhile (fun c => ¬ isSpaceCh c) :=
          List.take_subset _ _ hc
        have := List.mem_takeWhile_imp hmem
        simpa using this
    | none =>
      rw [hopt] at h
      exact ih g1 g2 rem h (le_trans (Nat.le_succ m) hm)

theorem tryAt_shape {l1 : Str} {k : Nat} {g1 g2 rem : Str}
    (h : tryAt l1 k = some (g1, g2, rem)) :
    ∃ a b, g1 = a ++ ':' :: b ∧ b ≠ [] ∧ ∀ c ∈ b, isSpaceCh c = false := by
  unfold tryAt at h
  split at h
  · obtain ⟨b, hb⟩ := tryPlus_shape (l1.take k) (l1.drop (k + 1)) _ g1 g2 rem h le_rfl
    exact ⟨l1.take k, b, hb⟩
  · exact Option.noConfusion h

theorem tryStar_shape {l1 : Str} : ∀ {k : Nat} {g1 g2 rem : Str},
    tryStar l1 k = some (g1, g2, rem) →
    ∃ a b, g1 = a ++ ':' :: b ∧ b ≠ [] ∧ ∀ c ∈ b, isSpaceCh c = false := by
  intro k
  induction k with
  | zero =>
    intro g1 g2 rem h
    exact tryAt_shape h
  | succ k ih =>
    intro g1 g2 rem h
    rw [show tryStar l1 (k + 1) =
        (match tryAt l1 (k + 1) with
        | some r => some r
        | none => tryStar l1 k) from rfl] at h
    cases hat : tryAt l1 (k + 1) with
    | some r =>
      rw [hat] at h
      have h' : r = (g1, g2, rem) := Option.some.inj h
      rw [h'] at hat
      exact tryAt_shape hat
    | none =>
      rw [hat] at h
      exact ih h

theorem locationSearch_shape : ∀ (s g1 g2 : Str), locationSearch s = some (g1, g2) →
    ∃ a b, g1 = a ++ ':' :: b ∧ b ≠ [] ∧ ∀ c ∈ b, isSpaceCh c = false := by
  intro s
  induction s with
  | nil =>
    intro g1 g2 h
    exact absurd h (by simp [locationSearch, locationMatchAt, startsWithL])
  | cons c rest ih =>
    intro g1 g2 h
    unfold locationSearch at h
    cases hm : locationMatchAt (c :: rest) with
    | some r =>
      obtain ⟨m1, m2, m3⟩ := r
      rw [hm] at h
      have hq : (m1, m2) = (g1, g2) := Option.some.inj h
      unfold locationMatchAt at hm
      split at hm
      · have hm' : (if ((c :: rest).drop 10).takeWhile isSpaceCh = [] then none
            else tryStar (((c :: rest).drop 10).dropWhile isSpaceCh)
              ((((c :: rest).drop 10).dropWhile isSpaceCh).takeWhile
                (fun c => ¬ isSpaceCh c)).length) = some (m1, m2, m3) := hm
        split at hm'
        · exact Option.noConfusion hm'
        · have hshape := tryStar_shape hm'
          injection hq with e1 e2
          rw [← e1]
          exact hshape
      · exact Option.noConfusion hm
    | none =>
      rw [hm] at h
      exact ih g1 g2 h

theorem tryPlus_colon (a after : Str) : ∀ (m : Nat) {r},
    tryPlus a after m = some r → True := fun _ _ _ => trivial

theorem tryAt_colon {l1 : Str} {k : Nat} {r : Str × Str × Str}
    (h : tryAt l1 k = some r) : ':' ∈ l1 := by
  unfold tryAt at h
  split at h
  · have hhead : (l1.drop k).head? = some ':' := by assumption
    have hmem : ':' ∈ l1.drop k := by
      cases hd : l1.drop k with
      | nil =>
        rw [hd] at hhead
        exact Option.noConfusion hhead
      | cons x xs =>
        rw [hd] at hhead
        rw [show x = ':' from Option.some.inj hhead]
        exact List.mem_cons_self _ _
    exact List.drop_subset k l1 hmem
  · exact Option.noConfusion h

theorem tryStar_colon {l1 : Str} : ∀ {k : Nat} {r : Str × Str × Str},
    tryStar l1 k = some r → ':' ∈ l1 := by
  intro k
  induction k with
  | zero =>
    intro r h
    exact tryAt_colon h
  | succ k ih =>
    intro r h
    rw [show tryStar l1 (k + 1) =
        (match tryAt l1 (k + 1) with
        | some r => some r
        | none => tryStar l1 k) from rfl] at h
    cases hat : tryAt l1 (k + 1) with
    | some r' =>
      exact tryAt_colon hat
    | none =>
      rw [hat] at h
      exact ih h

theorem locationSearch_colon : ∀ {s : Str} {r : Str × Str},
    locationSearch s = some r → ':' ∈ s := by
  intro s
  induction s with
  | nil =>
    intro r h
    exact absurd h (by simp [locationSearch, locationMatchAt, startsWithL])
  | cons c rest ih =>
    intro r h
    unfold locationSearch at h
    cases hm : locationMatchAt (c :: rest) with
    | some r' =>
      unfold locationMatchAt at hm
      split at hm
      · have hm' : (if ((c :: rest).drop 10).takeWhile isSpaceCh = [] then none
            else tryStar (((c :: rest).drop 10).dropWhile isSpaceCh)
              ((((c :: rest).drop 10).dropWhile isSpaceCh).takeWhile
                (fun c => ¬ isSpaceCh c)).length) = some r' := hm
        split at hm'
        · exact Option.noConfusion hm'
        · have h1 : ':' ∈ ((c :: rest).drop 10).dropWhile isSpaceCh := tryStar_colon hm'
          have h2 : ':' ∈ (c :: rest).drop 10 :=
            mem_of_mem_dropWhile isSpaceCh _ _ h1
          exact List.drop_subset 10 (c :: rest) h2
      · exact Option.noConfusion hm
    | none =>
      rw [hm] at h
      exact List.mem_cons_of_mem _ (ih h)

/-- C10: the `LOCATION_RE` pattern captures a reference only when it
contains a colon followed by at least one non-whitespace character;
consequently a colon-free string — such as one holding only a
`$(location #name)` system-library form — yields no match and
`_add_location_reference_target` adds no dependency. -/
theorem location_re_requires_colon :
    (∀ (s g1 g2 : Str), locationSearch s = some (g1, g2) →
      ∃ a b, g1 = a ++ ':' :: b ∧ b ≠ [] ∧ ∀ c ∈ b, isSpaceCh c = false) ∧
    (∀ s : Str, ':' ∉ s →
      locationSearch s = none ∧
      ∀ st : DepState, handleLocation st s = some (none, st)) := by
  constructor
  · exact locationSearch_shape
  · intro s hs
    have hnone : locationSearch s = none := by
      cases h : locationSearch s with
      | none => rfl
      | some r => exact absurd (locationSearch_colon h) hs
    refine ⟨hnone, ?_⟩
    intro st
    rw [handleLocation, hnone]
    rfl

theorem location_re_requires_colon_w :
    locationSearch (("$(location #pthread)").data) = none ∧
    handleLocation ⟨("app").data, [], [], []⟩ (("$(location #pthread)").data) =
      some (none, ⟨("app").data, [], [], []⟩) ∧
    (∃ a b, ("//proto:msg").data = a ++ ':' :: b ∧ b ≠ [] ∧
      ∀ c ∈ b, isSpaceCh c = false) :=
  ⟨(location_re_requires_colon.2 _ (by decide)).1,
   (location_re_requires_colon.2 _ (by decide)).2 _,
   location_re_requires_colon.1 (("cmd $(location //proto:msg jar)").data)
     (("//proto:msg").data) ((" jar").data) (by decide)⟩

end Blade
